import Mathlib

/-!
# Square export parser: registrant extraction

A shallow embedding of the row-to-record logic of `src/app.js`
(`processData`, `splitModifiers`, `parseIftarModifiers`,
`parseProgrammingModifiers`) and theorems about it.

JavaScript strings are modelled as lists of characters.  The operations of
the source look for ASCII characters and for white space only, and the one
index it computes (`lastIndexOf`) is used on the same string (`substring`), so
counting characters instead of UTF-16 code units changes no result.

The regular expressions of the source are written as small matcher functions:
a matcher takes the text at the current position and gives back the text left
after the match, or `none`.  Every literal of the source's patterns is ASCII,
so the `i` flag compares characters after ASCII upper-casing (the ECMAScript
`Canonicalize` operation never identifies a non-ASCII character with an ASCII
one).
-/

namespace SquareParser

/-- A JavaScript string. -/
abbrev Str := List Char

/-! ## String primitives -/

/-- ECMAScript `WhiteSpace` and `LineTerminator` code points: what
`String.prototype.trim` strips and what `\s` matches. -/
def isWhiteSpace (c : Char) : Bool :=
  let n := c.toNat
  n == 0x09 || n == 0x0A || n == 0x0B || n == 0x0C || n == 0x0D || n == 0x20 ||
  n == 0xA0 || n == 0x1680 || (0x2000 ≤ n && n ≤ 0x200A) || n == 0x2028 ||
  n == 0x2029 || n == 0x202F || n == 0x205F || n == 0x3000 || n == 0xFEFF

/-- The class `\d`: the ASCII digits. -/
def isDigit (c : Char) : Bool :=
  0x30 ≤ c.toNat && c.toNat ≤ 0x39

def trimStart (s : Str) : Str :=
  s.dropWhile isWhiteSpace

def trimEnd (s : Str) : Str :=
  (s.reverse.dropWhile isWhiteSpace).reverse

/-- `String.prototype.trim`. -/
def trim (s : Str) : Str :=
  trimEnd (trimStart s)

/-- Lowercase mapping of one character, as far as the program can observe it:
the lowered text is only compared with the ASCII words of `genderValues`.
ASCII capitals go to their small letter, U+212A (Kelvin sign) goes to `k` and
U+0130 goes to `i` followed by U+0307; these are the only characters whose
Unicode lowercase contains an ASCII letter.  Any other character is kept: its
Unicode lowercase is non-ASCII as well. -/
def lowerChar (c : Char) : Str :=
  if 0x41 ≤ c.toNat && c.toNat ≤ 0x5A then [Char.ofNat (c.toNat + 32)]
  else if c.toNat == 0x212A then ['k']
  else if c.toNat == 0x130 then ['i', Char.ofNat 0x307]
  else [c]

/-- `String.prototype.toLowerCase`. -/
def toLowerCase : Str → Str
  | [] => []
  | c :: cs => lowerChar c ++ toLowerCase cs

/-- Character comparison of a regular expression with the `i` flag. -/
def ciEq (a b : Char) : Bool :=
  a.toUpper == b.toUpper

/-- `s.startsWith(pat)` at the current position, case-sensitive. -/
def startsWith : Str → Str → Bool
  | [], _ => true
  | _ :: _, [] => false
  | p :: ps, c :: cs => p == c && startsWith ps cs

/-- `String.prototype.includes`. -/
def includes : Str → Str → Bool
  | [], pat => startsWith pat []
  | c :: cs, pat => startsWith pat (c :: cs) || includes cs pat

/-- `String.prototype.lastIndexOf`: the greatest index at which `pat` occurs,
or `-1`. -/
def lastIndexOf : Str → Str → Int
  | [], pat => if startsWith pat [] then 0 else -1
  | c :: cs, pat =>
    let r := lastIndexOf cs pat
    if r ≠ -1 then r + 1
    else if startsWith pat (c :: cs) then 0 else -1

/-- `String.prototype.substring` with one argument. -/
def substring (s : Str) (start : Int) : Str :=
  s.drop start.toNat

/-! ## Regular expressions -/

/-- A literal under the `i` flag: the text after the literal. -/
def matchLit : Str → Str → Option Str
  | [], s => some s
  | _ :: _, [] => none
  | p :: ps, c :: cs => if ciEq p c then matchLit ps cs else none

/-- One character of a class. -/
def matchClass (p : Char → Bool) : Str → Option Str
  | [] => none
  | c :: cs => if p c then some cs else none

/-- The greedy `\s*`.  In every pattern of the source it is followed by a
non-space literal or by the end of the pattern, so no backtracking occurs. -/
def skipWs (s : Str) : Str :=
  s.dropWhile isWhiteSpace

/-- `RegExp.prototype.test` for a pattern without `^`: a match at some
position of the text. -/
def search (m : Str → Option Str) : Str → Bool
  | [] => (m []).isSome
  | c :: cs => (m (c :: cs)).isSome || search m cs

/-- `String.prototype.replace(re, '')` for a pattern anchored by `^`. -/
def replaceStart (m : Str → Option Str) (s : Str) : Str :=
  (m s).getD s

/-- The pattern `^Full Name:` with flag `i`. -/
def reFullName (s : Str) : Option Str :=
  matchLit "Full Name:".toList s

/-- The pattern `^Full Name:\s*` with flag `i`. -/
def reFullNameWs (s : Str) : Option Str :=
  (reFullName s).map skipWs

/-- The pattern `^Accessibility Needs?:` with flag `i`. -/
def reAccessibility (s : Str) : Option Str :=
  (matchLit "Accessibility Need".toList s).bind fun r =>
    match (matchLit "s".toList r).bind (matchLit ":".toList) with
    | some r1 => some r1
    | none => matchLit ":".toList r

/-- The pattern `^Accessibility Needs?:\s*` with flag `i`. -/
def reAccessibilityWs (s : Str) : Option Str :=
  (reAccessibility s).map skipWs

/-- The pattern `^Email:` with flag `i`. -/
def reEmail (s : Str) : Option Str :=
  matchLit "Email:".toList s

/-- The pattern `^Email:\s*` with flag `i`. -/
def reEmailWs (s : Str) : Option Str :=
  (reEmail s).map skipWs

/-- The pattern `^Confirm Email:\s*` with flag `i`. -/
def reConfirmEmailWs (s : Str) : Option Str :=
  (matchLit "Confirm Email:".toList s).map skipWs

/-- The pattern `dietary|food allerg` with flag `i`, at one position. -/
def reDietary (s : Str) : Option Str :=
  match matchLit "dietary".toList s with
  | some r => some r
  | none => matchLit "food allerg".toList s

/-- The pattern `^Phone Number:` with flag `i`. -/
def rePhone (s : Str) : Option Str :=
  matchLit "Phone Number:".toList s

/-- The pattern `^\d[\d\s-]{6,}$`. -/
def reDigits (s : Str) : Bool :=
  match s with
  | [] => false
  | d :: rest =>
    isDigit d && decide (6 ≤ rest.length) &&
      rest.all fun c => isDigit c || isWhiteSpace c || c == '-'

/-- The pattern `^\d\+?$`. -/
def reYear (s : Str) : Bool :=
  match matchClass isDigit s with
  | none => false
  | some r =>
    match matchLit "+".toList r with
    | some r1 => r1.isEmpty
    | none => r.isEmpty

/-- The pattern `^(yes|no)$` with flag `i`. -/
def reYesNo (s : Str) : Bool :=
  (match matchLit "yes".toList s with
   | some r => r.isEmpty
   | none => false) ||
  (match matchLit "no".toList s with
   | some r => r.isEmpty
   | none => false)

/-- The pattern `iftar` with flag `i`, at one position. -/
def reIftar (s : Str) : Option Str :=
  matchLit "iftar".toList s

/-- The pattern `^1\s*x\s` with flag `i`. -/
def reQty (s : Str) : Option Str :=
  (matchLit "1".toList s).bind fun r =>
    (matchLit "x".toList (skipWs r)).bind (matchClass isWhiteSpace)

/-- The pattern `,\s*1\s*x\s` with flag `i`, at one position. -/
def reCommaQty (s : Str) : Option Str :=
  (matchLit ",".toList s).bind fun r => reQty (skipWs r)

/-- The pattern `,\s*`, at one position. -/
def reComma (s : Str) : Option Str :=
  (matchLit ",".toList s).map skipWs

/-- The loop of `String.prototype.split(re)`: `skip` counts the characters
of the separator just matched that are still to be passed over, `cur` holds
the piece being read, newest character first.  A separator is tried at every
position before the end of the text; the text after the last separator is the
last piece.  An empty match splits only where the current piece is not empty
(the separators of this program start with a comma, so their matches are
never empty). -/
def splitAux (m : Str → Option Str) : Str → Nat → Str → List Str
  | [], _, cur => [cur.reverse]
  | _ :: cs, skip + 1, cur => splitAux m cs skip cur
  | c :: cs, 0, cur =>
    match m (c :: cs) with
    | none => splitAux m cs 0 (c :: cur)
    | some r =>
      if r.length ≤ cs.length then cur.reverse :: splitAux m cs (cs.length - r.length) []
      else if cur.isEmpty then splitAux m cs 0 (c :: cur)
      else cur.reverse :: splitAux m cs 0 [c]

/-- `String.prototype.split(re)`. -/
def split (m : Str → Option Str) (s : Str) : List Str :=
  splitAux m s 0 []

/-! ## Modifier splitting -/

/-- `splitModifiers(str)`. -/
def splitModifiers (str : Str) : List Str :=
  if (reQty str).isSome then
    split reCommaQty (replaceStart reQty str)
  else
    split reComma str

/-! ## Modifier parsers -/

/-- An entry of `allIftarEntries`.  `event` is the property that
`processData` assigns after parsing. -/
structure IftarRecord where
  fullName : Str
  email : Str
  dietaryRestrictions : Str
  event : Str
  deriving DecidableEq, Repr

/-- An entry of `allProgrammingEntries`.  `event` is the property that
`processData` assigns after parsing. -/
structure ProgrammingRecord where
  fullName : Str
  email : Str
  gender : Str
  status : Str
  year : Str
  photoConsent : Str
  accessibility : Str
  event : Str
  deriving DecidableEq, Repr

/-- The value stored by the e-mail branch of both parsers. -/
def emailValue (trimmed : Str) : Str :=
  trim (replaceStart reEmailWs (replaceStart reConfirmEmailWs trimmed))

/-- The test of the e-mail branch of both parsers. -/
def isEmailClause (trimmed : Str) : Bool :=
  (reEmail trimmed).isSome || includes trimmed "@".toList

/-- The body of the loop of `parseIftarModifiers`. -/
def iftarStep (result : IftarRecord) (part : Str) : IftarRecord :=
  let trimmed := trim part
  if trimmed.isEmpty then result
  else if (reFullName trimmed).isSome then
    { result with fullName := trim (replaceStart reFullNameWs trimmed) }
  else if isEmailClause trimmed then
    { result with email := emailValue trimmed }
  else if search reDietary trimmed then
    let lastColon := lastIndexOf trimmed ": ".toList
    if lastColon ≠ -1 then
      { result with dietaryRestrictions := trim (substring trimmed (lastColon + 2)) }
    else result
  else result

/-- `parseIftarModifiers(parts)`. -/
def parseIftarModifiers (parts : List Str) : IftarRecord :=
  parts.foldl iftarStep
    { fullName := [], email := [], dietaryRestrictions := [], event := [] }

/-- The body of the first loop of `parseProgrammingModifiers`: the state is
the record and the array `unlabeled`. -/
def programmingStep (st : ProgrammingRecord × List Str) (part : Str) :
    ProgrammingRecord × List Str :=
  let trimmed := trim part
  if trimmed.isEmpty then st
  else if (reFullName trimmed).isSome then
    ({ st.1 with fullName := trim (replaceStart reFullNameWs trimmed) }, st.2)
  else if (reAccessibility trimmed).isSome then
    ({ st.1 with accessibility := trim (replaceStart reAccessibilityWs trimmed) }, st.2)
  else if isEmailClause trimmed then
    ({ st.1 with email := emailValue trimmed }, st.2)
  else if (rePhone trimmed).isSome || reDigits trimmed then st
  else (st.1, st.2 ++ [trimmed])

/-- The first loop of `parseProgrammingModifiers`. -/
def labeledPass (parts : List Str) : ProgrammingRecord × List Str :=
  parts.foldl programmingStep
    ({ fullName := [], email := [], gender := [], status := [], year := [],
       photoConsent := [], accessibility := [], event := [] }, [])

/-- The array `genderValues`. -/
def genderValues : List Str :=
  ["male".toList, "female".toList, "non-binary".toList, "nonbinary".toList,
   "prefer not to say".toList]

/-- The element `unlabeled[idx]`, read only under the guard
`idx < unlabeled.length`. -/
def at_ (unlabeled : List Str) (idx : Nat) : Str :=
  unlabeled.getD idx []

/-- The guard of the gender step. -/
def isGender (s : Str) : Bool :=
  genderValues.contains (toLowerCase s)

/-- The guard of the status step. -/
def isStatus (s : Str) : Bool :=
  !reYear s && !reYesNo s

/-- The gender step: the record and the cursor `idx` after it. -/
def takeGender (unlabeled : List Str) (st : ProgrammingRecord × Nat) : ProgrammingRecord × Nat :=
  if decide (st.2 < unlabeled.length) && isGender (at_ unlabeled st.2) then
    ({ st.1 with gender := at_ unlabeled st.2 }, st.2 + 1)
  else st

/-- The status step. -/
def takeStatus (unlabeled : List Str) (st : ProgrammingRecord × Nat) : ProgrammingRecord × Nat :=
  if decide (st.2 < unlabeled.length) && isStatus (at_ unlabeled st.2) then
    ({ st.1 with status := at_ unlabeled st.2 }, st.2 + 1)
  else st

/-- The year step. -/
def takeYear (unlabeled : List Str) (st : ProgrammingRecord × Nat) : ProgrammingRecord × Nat :=
  if decide (st.2 < unlabeled.length) && reYear (at_ unlabeled st.2) then
    ({ st.1 with year := at_ unlabeled st.2 }, st.2 + 1)
  else st

/-- The photo consent step. -/
def takePhotoConsent (unlabeled : List Str) (st : ProgrammingRecord × Nat) :
    ProgrammingRecord × Nat :=
  if decide (st.2 < unlabeled.length) && reYesNo (at_ unlabeled st.2) then
    ({ st.1 with photoConsent := at_ unlabeled st.2 }, st.2 + 1)
  else st

/-- The positional part of `parseProgrammingModifiers`, from `let idx = 0`
to the end: the record and the final cursor. -/
def positionalPass (result : ProgrammingRecord) (unlabeled : List Str) : ProgrammingRecord × Nat :=
  takePhotoConsent unlabeled
    (takeYear unlabeled (takeStatus unlabeled (takeGender unlabeled (result, 0))))

/-- `parseProgrammingModifiers(parts)`. -/
def parseProgrammingModifiers (parts : List Str) : ProgrammingRecord :=
  let st := labeledPass parts
  (positionalPass st.1 st.2).1

/-! ## Row processing -/

/-- A row of the parsed table: the values of the line under the header's
column names. -/
abbrev RawRow := List (Str × Str)

/-- The test `key in row`. -/
def hasKey (row : RawRow) (key : Str) : Bool :=
  (row.lookup key).isSome

/-- The expression `(row[key] || '')`. -/
def field (row : RawRow) (key : Str) : Str :=
  (row.lookup key).getD []

/-- `Set.prototype.add` on a set kept in insertion order. -/
def setAdd (s : List Str) (x : Str) : List Str :=
  if x ∈ s then s else s ++ [x]

/-- What `processData` builds: the two entry arrays and the two event sets
(as `Array.from` lists them). -/
structure Output where
  allIftarEntries : List IftarRecord
  allProgrammingEntries : List ProgrammingRecord
  iftarEvents : List Str
  programmingEvents : List Str
  deriving DecidableEq, Repr

/-- The variables that the loop of `processData` reads off a row. -/
structure RowVars where
  item : Str
  modifiers : Str
  email : Str
  recipientName : Str
  isIftar : Bool
  isProgramming : Bool
  deriving DecidableEq, Repr

/-- The first half of the loop body of `processData`, up to the test of
`modifiers`. -/
def rowVars (isOrdersFormat : Bool) (row : RawRow) : RowVars :=
  if isOrdersFormat then
    let item := trim (field row "Item Name".toList)
    let isIftar := search reIftar item
    { item := item
      modifiers := trim (field row "Item Modifiers".toList)
      email := trim (field row "Recipient Email".toList)
      recipientName := trim (field row "Recipient Name".toList)
      isIftar := isIftar
      isProgramming := !isIftar && !item.isEmpty }
  else
    let category := trim (field row "Category".toList)
    { item := trim (field row "Item".toList)
      modifiers := trim (field row "Modifiers Applied".toList)
      email := []
      recipientName := []
      isIftar := category == "Ramadan Iftars 2026".toList
      isProgramming := category == "Ramadan Programming 2026".toList }

/-- The entry pushed by the Iftar branch. -/
def iftarEntry (v : RowVars) : IftarRecord :=
  let entry := parseIftarModifiers (splitModifiers v.modifiers)
  let entry := if entry.fullName.isEmpty then { entry with fullName := v.recipientName } else entry
  let entry := if entry.email.isEmpty then { entry with email := v.email } else entry
  { entry with event := v.item }

/-- The entry pushed by the Programming branch. -/
def programmingEntry (v : RowVars) : ProgrammingRecord :=
  let entry := parseProgrammingModifiers (splitModifiers v.modifiers)
  let entry := if entry.fullName.isEmpty then { entry with fullName := v.recipientName } else entry
  let entry := if entry.email.isEmpty then { entry with email := v.email } else entry
  { entry with event := v.item }

/-- The body of the loop of `processData`. -/
def processRow (isOrdersFormat : Bool) (out : Output) (row : RawRow) : Output :=
  let v := rowVars isOrdersFormat row
  if v.modifiers.isEmpty then out
  else if v.isIftar then
    { out with
      allIftarEntries := out.allIftarEntries ++ [iftarEntry v]
      iftarEvents := if v.item.isEmpty then out.iftarEvents else setAdd out.iftarEvents v.item }
  else if v.isProgramming then
    { out with
      allProgrammingEntries := out.allProgrammingEntries ++ [programmingEntry v]
      programmingEvents :=
        if v.item.isEmpty then out.programmingEvents else setAdd out.programmingEvents v.item }
  else out

/-- The state at the start of `processData`. -/
def emptyOutput : Output :=
  { allIftarEntries := [], allProgrammingEntries := [], iftarEvents := [], programmingEvents := [] }

/-- The test `'Item Name' in rows[0]`. -/
def isOrdersFormat (row0 : RawRow) : Bool :=
  hasKey row0 "Item Name".toList

/-- `processData(rows)`, up to the rendering calls. -/
def processData (rows : List RawRow) : Output :=
  match rows with
  | [] => emptyOutput
  | row0 :: _ => rows.foldl (processRow (isOrdersFormat row0)) emptyOutput

/-! ## Vocabulary of the specification -/

/-- A year token in words: one ASCII digit, optionally followed by `+`. -/
def IsYearToken (s : Str) : Prop :=
  ∃ d : Char, '0' ≤ d ∧ d ≤ '9' ∧ (s = [d] ∨ s = [d, '+'])

/-- Equality of two texts up to the case of ASCII letters. -/
def SameUpToCase (s w : Str) : Prop :=
  s.map Char.toUpper = w.map Char.toUpper

/-- A yes/no token in words. -/
def IsYesNo (s : Str) : Prop :=
  SameUpToCase s "yes".toList ∨ SameUpToCase s "no".toList

/-- A word of the gender vocabulary, up to case. -/
def IsGenderWord (s : Str) : Prop :=
  toLowerCase s ∈ genderValues

/-- The text starts with the word `p`, up to case. -/
def HasPrefixCI (p s : Str) : Prop :=
  ∃ w r, s = w ++ r ∧ SameUpToCase w p

/-- The text contains the word `p`, up to case. -/
def ContainsCI (p s : Str) : Prop :=
  ∃ u w v, s = u ++ w ++ v ∧ SameUpToCase w p

/-- A digit-dominant clause: a leading digit followed by six or more digits,
spaces or hyphens. -/
def IsDigitDominant (c : Str) : Prop :=
  ∃ d rest, c = d :: rest ∧ ('0' ≤ d ∧ d ≤ '9') ∧ 6 ≤ rest.length ∧
    ∀ x ∈ rest, ('0' ≤ x ∧ x ≤ '9') ∨ isWhiteSpace x = true ∨ x = '-'

/-- A clause that none of the labeled rules of `parseProgrammingModifiers`
takes: no `Full Name:`, `Accessibility Need(s):`, `Email:` or `Phone Number:`
prefix, no `@`, not digit-dominant. -/
def IsUnlabeled (c : Str) : Prop :=
  ¬ HasPrefixCI "Full Name:".toList c ∧ ¬ HasPrefixCI "Accessibility Need:".toList c ∧
    ¬ HasPrefixCI "Accessibility Needs:".toList c ∧ ¬ HasPrefixCI "Email:".toList c ∧
    ¬ HasPrefixCI "Phone Number:".toList c ∧ '@' ∉ c ∧ ¬ IsDigitDominant c

/-- A trimmed, non-empty clause. -/
def IsClause (c : Str) : Prop :=
  trim c = c ∧ c ≠ []

/-- The non-empty values among gender, status, year and photo consent, in
that order. -/
def positionalValues (r : ProgrammingRecord) : List Str :=
  [r.gender, r.status, r.year, r.photoConsent].filter fun v => !v.isEmpty

instance (s w : Str) : Decidable (SameUpToCase s w) := by
  unfold SameUpToCase; infer_instance

instance (s : Str) : Decidable (IsYesNo s) := by
  unfold IsYesNo; infer_instance

instance (s : Str) : Decidable (IsGenderWord s) := by
  unfold IsGenderWord; infer_instance

instance (c : Str) : Decidable (IsClause c) := by
  unfold IsClause; infer_instance

/-- The format flag that `processData` uses for a table: that of its first
row. -/
def tableFormat (rows : List RawRow) : Bool :=
  match rows with
  | [] => false
  | row0 :: _ => isOrdersFormat row0

/-- The rows for which the loop body reaches the Iftar branch. -/
def yieldsIftar (fmt : Bool) (row : RawRow) : Bool :=
  !(rowVars fmt row).modifiers.isEmpty && (rowVars fmt row).isIftar

/-- The rows for which the loop body reaches the Programming branch. -/
def yieldsProgramming (fmt : Bool) (row : RawRow) : Bool :=
  !(rowVars fmt row).modifiers.isEmpty && !(rowVars fmt row).isIftar &&
    (rowVars fmt row).isProgramming

/-- The trimmed item string of a row: column `Item Name` in the orders
export, column `Item` in the items export. -/
def itemOf (fmt : Bool) (row : RawRow) : Str :=
  if fmt then trim (field row "Item Name".toList) else trim (field row "Item".toList)

/-- The distinct values of a list in the order of their first occurrence. -/
def firstOccurrences : List Str → List Str
  | [] => []
  | x :: xs => x :: (firstOccurrences xs).filter fun y => y ≠ x

/-- The event set after the non-empty items of `items` were added to
`events`, one after the other. -/
def addEvents (events : List Str) (items : List Str) : List Str :=
  (items.filter fun i => !i.isEmpty).foldl setAdd events

/-- A pool of unlabeled clauses that starts with the positional grammar:
optional gender word, status, optional year token, yes/no token, then
anything.  The status is no year token and no yes/no token and, when the
gender is left out, no gender word. -/
def FollowsGrammar (pool : List Str) : Prop :=
  ∃ (G Y : Option Str) (S P : Str) (rest : List Str),
    pool = G.toList ++ [S] ++ Y.toList ++ [P] ++ rest ∧
    (∀ g ∈ G, IsGenderWord g) ∧ ¬ IsYearToken S ∧ ¬ IsYesNo S ∧
    (G = none → ¬ IsGenderWord S) ∧ (∀ y ∈ Y, IsYearToken y) ∧ IsYesNo P

/-- A part that both parsers take as a name clause. -/
def isNameClause (part : Str) : Bool :=
  !(trim part).isEmpty && (reFullName (trim part)).isSome

/-- The name that a name clause carries. -/
def nameValueOf (part : Str) : Str :=
  trim (replaceStart reFullNameWs (trim part))

/-- A part that `parseIftarModifiers` takes as an e-mail clause. -/
def isIftarEmailClause (part : Str) : Bool :=
  !(trim part).isEmpty && !(reFullName (trim part)).isSome && isEmailClause (trim part)

/-- A part that `parseProgrammingModifiers` takes as an e-mail clause. -/
def isProgrammingEmailClause (part : Str) : Bool :=
  !(trim part).isEmpty && !(reFullName (trim part)).isSome &&
    !(reAccessibility (trim part)).isSome && isEmailClause (trim part)

/-- The address that an e-mail clause carries. -/
def emailValueOf (part : Str) : Str :=
  emailValue (trim part)

/-- The value of the last part that satisfies `p`, or the empty string when
there is none. -/
def lastValue (parts : List Str) (p : Str → Bool) (val : Str → Str) : Str :=
  match (parts.filter p).getLast? with
  | some c => val c
  | none => []

/-- A value, or the fallback when the value is the empty string. -/
def orFallback (v fallback : Str) : Str :=
  if v.isEmpty then fallback else v

/-- The recipient column that backs a field: the trimmed cell in the orders
export, the empty string in the items export. -/
def recipientFallback (fmt : Bool) (row : RawRow) (key : Str) : Str :=
  if fmt then trim (field row key) else []

/-- A text that starts with a quantity token: `1`, any white space, `x` or
`X`, one white-space character. -/
def BeginsWithQuantityToken (c : Str) : Prop :=
  ∃ (ws : Str) (x w : Char) (rest : Str),
    c = '1' :: ws ++ x :: w :: rest ∧ (∀ a ∈ ws, isWhiteSpace a = true) ∧
      (x = 'x' ∨ x = 'X') ∧ isWhiteSpace w = true

/-- `Array.prototype.join(sep)`: the clauses with `sep` between them. -/
def joinWith (sep : Str) : List Str → Str
  | [] => []
  | [c] => c
  | c :: c2 :: t => c ++ sep ++ joinWith sep (c2 :: t)

/-- What follows the first clause in `joinWith sep (c :: l)`. -/
def joinTail (sep : Str) (l : List Str) : Str :=
  match l with
  | [] => []
  | c2 :: t => sep ++ joinWith sep (c2 :: t)

/-! ## Characters and patterns -/

theorem toNat_ofNat_small (n : Nat) (h : n < 0xd800) : (Char.ofNat n).toNat = n := by
  have hv : n.isValidChar := Or.inl h
  simp [Char.ofNat, hv, Char.ofNatAux, Char.toNat, UInt32.toNat]

/-- Upper-casing identifies a character with a non-letter only when they are equal. -/
theorem toUpper_eq_iff_of_not_letter (c p : Char) (h1 : ¬ (65 ≤ p.toNat ∧ p.toNat ≤ 90))
    (h2 : ¬ (97 ≤ p.toNat ∧ p.toNat ≤ 122)) : c.toUpper = p.toUpper ↔ c = p := by
  have hp : p.toUpper = p := by
    simp only [Char.toUpper]
    rw [if_neg]
    simpa using h2
  rw [hp]
  simp only [Char.toUpper]
  split
  · rename_i hc
    constructor
    · intro e
      exfalso
      apply h1
      rw [← e, toNat_ofNat_small _ (by omega)]
      omega
    · intro e
      subst e
      exact absurd hc (by simpa using h2)
  · rfl

theorem ciEq_of_not_letter (p c : Char) (h1 : ¬ (65 ≤ p.toNat ∧ p.toNat ≤ 90))
    (h2 : ¬ (97 ≤ p.toNat ∧ p.toNat ≤ 122)) : ciEq p c = true ↔ c = p := by
  simp only [ciEq, beq_iff_eq]
  rw [eq_comm, toUpper_eq_iff_of_not_letter c p h1 h2]

theorem isDigit_iff (d : Char) : isDigit d = true ↔ ('0' ≤ d ∧ d ≤ '9') := by
  simp only [isDigit, Bool.and_eq_true, decide_eq_true_eq]
  rfl

theorem matchLit_eq_some_nil (p s : Str) :
    matchLit p s = some [] ↔ SameUpToCase s p := by
  induction p generalizing s with
  | nil => cases s <;> simp [matchLit, SameUpToCase]
  | cons a p ih =>
    cases s with
    | nil => simp [matchLit, SameUpToCase]
    | cons c cs =>
      by_cases h : c.toUpper = a.toUpper
      · have h2 : ciEq a c = true := by simp [ciEq, h]
        simp [matchLit, h2, ih, SameUpToCase, h]
      · have h2 : ciEq a c = false := by
          simp only [ciEq, beq_eq_false_iff_ne, ne_eq]
          exact fun e => h e.symm
        simp [matchLit, h2, SameUpToCase, h]

theorem matchLit_isEmpty (p s : Str) :
    (match matchLit p s with
     | some r => r.isEmpty
     | none => false) = true ↔ SameUpToCase s p := by
  rw [← matchLit_eq_some_nil]
  cases h : matchLit p s with
  | none => simp
  | some r => cases r <;> simp

/-- The pattern `^(yes|no)$` with flag `i` accepts the yes/no tokens. -/
theorem reYesNo_iff (s : Str) : reYesNo s = true ↔ IsYesNo s := by
  unfold reYesNo IsYesNo
  rw [Bool.or_eq_true, matchLit_isEmpty, matchLit_isEmpty]

theorem matchLit_cons_not_letter (p : Char) (ps : Str) (h1 : ¬ (65 ≤ p.toNat ∧ p.toNat ≤ 90))
    (h2 : ¬ (97 ≤ p.toNat ∧ p.toNat ≤ 122)) (c : Char) (t : Str) :
    matchLit (p :: ps) (c :: t) = if c = p then matchLit ps t else none := by
  by_cases hc : c = p
  · have h : ciEq p c = true := (ciEq_of_not_letter p c h1 h2).2 hc
    rw [if_pos hc]
    simp only [matchLit, h, if_true]
  · have h : ciEq p c = false := by
      rw [Bool.eq_false_iff]
      exact fun e => hc ((ciEq_of_not_letter p c h1 h2).1 e)
    rw [if_neg hc]
    simp [matchLit, h]

/-- The pattern `^\d\+?$` accepts the year tokens. -/
theorem reYear_iff (s : Str) : reYear s = true ↔ IsYearToken s := by
  unfold IsYearToken
  have hlit : "+".toList = ['+'] := rfl
  cases s with
  | nil => simp [reYear, matchClass]
  | cons d r =>
    by_cases hd : isDigit d = true
    · have hd2 := (isDigit_iff d).1 hd
      simp only [reYear, matchClass, hd, if_true, hlit]
      cases r with
      | nil =>
        constructor
        · intro _; exact ⟨d, hd2.1, hd2.2, Or.inl rfl⟩
        · intro _; rfl
      | cons p t =>
        rw [matchLit_cons_not_letter '+' [] (by decide) (by decide)]
        by_cases hp : p = '+'
        · subst hp
          cases t with
          | nil =>
            constructor
            · intro _; exact ⟨d, hd2.1, hd2.2, Or.inr rfl⟩
            · intro _; rfl
          | cons q t2 => simp [matchLit]
        · simp only [hp, if_false]
          constructor
          · intro h; simp at h
          · rintro ⟨e, _, _, h | h⟩
            · simp at h
            · simp only [List.cons.injEq] at h
              exact absurd h.2.1 hp
    · have hd3 : isDigit d = false := by simpa using hd
      simp only [reYear, matchClass, hd3]
      constructor
      · intro h; simp at h
      · rintro ⟨e, h1, h2, h | h⟩ <;>
        · simp only [List.cons.injEq] at h
          rw [h.1] at hd
          exact absurd ((isDigit_iff e).2 ⟨h1, h2⟩) hd

/-! ## Prefixes and words up to case -/

theorem matchLit_eq_some_iff (p s r : Str) :
    matchLit p s = some r ↔ ∃ w, s = w ++ r ∧ SameUpToCase w p := by
  induction p generalizing s with
  | nil =>
    simp only [matchLit, Option.some.injEq, SameUpToCase, List.map_nil, List.map_eq_nil_iff]
    constructor
    · intro h; exact ⟨[], by simp [h], rfl⟩
    · rintro ⟨w, h1, h2⟩; subst h2; simpa using h1
  | cons a p ih =>
    cases s with
    | nil =>
      simp only [matchLit]
      refine Iff.intro (fun h => Option.noConfusion h) ?_
      rintro ⟨w, h1, h2⟩
      have hw : w = [] := by
        cases w with
        | nil => rfl
        | cons x y => simp at h1
      subst hw
      simp [SameUpToCase] at h2
    | cons c cs =>
      by_cases h : c.toUpper = a.toUpper
      · have h2 : ciEq a c = true := by simp [ciEq, h]
        simp only [matchLit, h2, if_true, ih]
        constructor
        · rintro ⟨w, h3, h4⟩
          refine ⟨c :: w, by simp [h3], ?_⟩
          simp only [SameUpToCase, List.map_cons] at h4 ⊢
          rw [h, h4]
        · rintro ⟨w, h3, h4⟩
          cases w with
          | nil => simp [SameUpToCase] at h4
          | cons x y =>
            simp only [List.cons_append, List.cons.injEq] at h3
            simp only [SameUpToCase, List.map_cons, List.cons.injEq] at h4
            exact ⟨y, h3.2, h4.2⟩
      · have h2 : ciEq a c = false := by
          simp only [ciEq, beq_eq_false_iff_ne, ne_eq]
          exact fun e => h e.symm
        simp only [matchLit, h2, Bool.false_eq_true, if_false]
        refine Iff.intro (fun h => Option.noConfusion h) ?_
        rintro ⟨w, h3, h4⟩
        cases w with
        | nil => simp [SameUpToCase] at h4
        | cons x y =>
          simp only [List.cons_append, List.cons.injEq] at h3
          simp only [SameUpToCase, List.map_cons, List.cons.injEq] at h4
          rw [← h3.1] at h4
          exact absurd h4.1 h

/-- A literal under the `i` flag matches at the start exactly when the text
starts with the literal up to case. -/
theorem matchLit_isSome_iff (p s : Str) : (matchLit p s).isSome = true ↔ HasPrefixCI p s := by
  rw [Option.isSome_iff_exists]
  constructor
  · rintro ⟨r, h⟩
    obtain ⟨w, h1, h2⟩ := (matchLit_eq_some_iff p s r).1 h
    exact ⟨w, r, h1, h2⟩
  · rintro ⟨w, r, h1, h2⟩
    exact ⟨r, (matchLit_eq_some_iff p s r).2 ⟨w, h1, h2⟩⟩

theorem matchLit_eq_none_iff (p s : Str) : matchLit p s = none ↔ ¬ HasPrefixCI p s := by
  rw [← matchLit_isSome_iff]
  cases matchLit p s <;> simp

theorem matchLit_append (p q s : Str) :
    matchLit (p ++ q) s = (matchLit p s).bind (matchLit q) := by
  induction p generalizing s with
  | nil => simp [matchLit]
  | cons a p ih =>
    cases s with
    | nil => simp [matchLit]
    | cons c cs =>
      simp only [List.cons_append, matchLit]
      split_ifs
      · exact ih cs
      · rfl

theorem reAccessibility_eq_none_iff (c : Str) :
    reAccessibility c = none ↔
      (¬ HasPrefixCI "Accessibility Need:".toList c ∧
        ¬ HasPrefixCI "Accessibility Needs:".toList c) := by
  rw [← matchLit_eq_none_iff, ← matchLit_eq_none_iff]
  have h1 : "Accessibility Need:".toList = "Accessibility Need".toList ++ ":".toList := by decide
  have h2 : "Accessibility Needs:".toList =
      "Accessibility Need".toList ++ ("s".toList ++ ":".toList) := by decide
  rw [h1, h2, matchLit_append, matchLit_append, reAccessibility]
  cases matchLit "Accessibility Need".toList c with
  | none => simp
  | some r =>
    simp only [Option.some_bind, matchLit_append]
    cases h : (matchLit "s".toList r).bind (matchLit ":".toList) with
    | none => simp
    | some r1 => simp

theorem search_iff (m : Str → Option Str) (s : Str) :
    search m s = true ↔ ∃ u t, s = u ++ t ∧ (m t).isSome = true := by
  induction s with
  | nil =>
    simp only [search]
    constructor
    · intro h; exact ⟨[], [], rfl, h⟩
    · rintro ⟨u, t, h1, h2⟩
      have : t = [] := by
        cases u <;> simp at h1
        exact h1
      rw [this] at h2
      exact h2
  | cons c cs ih =>
    simp only [search, Bool.or_eq_true, ih]
    constructor
    · rintro (h | ⟨u, t, h1, h2⟩)
      · exact ⟨[], c :: cs, rfl, h⟩
      · exact ⟨c :: u, t, by simp [h1], h2⟩
    · rintro ⟨u, t, h1, h2⟩
      cases u with
      | nil =>
        left
        simp only [List.nil_append] at h1
        rw [h1]
        exact h2
      | cons x y =>
        right
        simp only [List.cons_append, List.cons.injEq] at h1
        exact ⟨y, t, h1.2, h2⟩

theorem search_matchLit_iff (p s : Str) : search (matchLit p) s = true ↔ ContainsCI p s := by
  rw [search_iff]
  constructor
  · rintro ⟨u, t, h1, h2⟩
    obtain ⟨w, r, h3, h4⟩ := (matchLit_isSome_iff p t).1 h2
    exact ⟨u, w, r, by rw [h1, h3, List.append_assoc], h4⟩
  · rintro ⟨u, w, v, h1, h2⟩
    exact ⟨u, w ++ v, by rw [h1, List.append_assoc], (matchLit_isSome_iff p _).2 ⟨w, v, rfl, h2⟩⟩

/-- The pattern `dietary|food allerg` with flag `i` finds one of its two
words somewhere in the text. -/
theorem search_reDietary_iff (s : Str) :
    search reDietary s = true ↔
      (ContainsCI "dietary".toList s ∨ ContainsCI "food allerg".toList s) := by
  rw [← search_matchLit_iff, ← search_matchLit_iff, search_iff, search_iff, search_iff]
  have key : ∀ t, (reDietary t).isSome = true ↔
      ((matchLit "dietary".toList t).isSome = true ∨
        (matchLit "food allerg".toList t).isSome = true) := by
    intro t
    simp only [reDietary]
    cases matchLit "dietary".toList t <;> simp
  constructor
  · rintro ⟨u, t, h1, h2⟩
    rcases (key t).1 h2 with h | h
    · exact Or.inl ⟨u, t, h1, h⟩
    · exact Or.inr ⟨u, t, h1, h⟩
  · rintro (⟨u, t, h1, h2⟩ | ⟨u, t, h1, h2⟩)
    · exact ⟨u, t, h1, (key t).2 (Or.inl h2)⟩
    · exact ⟨u, t, h1, (key t).2 (Or.inr h2)⟩

/-- The pattern `^\d[\d\s-]{6,}$` accepts the digit-dominant clauses. -/
theorem reDigits_iff (c : Str) : reDigits c = true ↔ IsDigitDominant c := by
  cases c with
  | nil => simp [reDigits, IsDigitDominant]
  | cons d rest =>
    simp only [reDigits, IsDigitDominant, Bool.and_eq_true, decide_eq_true_eq, List.all_eq_true,
      Bool.or_eq_true, beq_iff_eq, isDigit_iff]
    constructor
    · rintro ⟨⟨h1, h2⟩, h3⟩
      exact ⟨d, rest, rfl, h1, h2, fun x hx => by
        rcases h3 x hx with (h | h) | h
        · exact Or.inl h
        · exact Or.inr (Or.inl h)
        · exact Or.inr (Or.inr h)⟩
    · rintro ⟨d2, rest2, h0, h1, h2, h3⟩
      simp only [List.cons.injEq] at h0
      obtain ⟨rfl, rfl⟩ := h0
      exact ⟨⟨h1, h2⟩, fun x hx => by
        rcases h3 x hx with h | h | h
        · exact Or.inl (Or.inl h)
        · exact Or.inl (Or.inr h)
        · exact Or.inr h⟩

/-- The clauses that no labeled rule takes, in terms of the patterns of the
source. -/
theorem isUnlabeled_iff (c : Str) :
    IsUnlabeled c ↔
      (reFullName c = none ∧ reAccessibility c = none ∧ reEmail c = none ∧
        rePhone c = none ∧ '@' ∉ c ∧ reDigits c = false) := by
  unfold IsUnlabeled
  rw [reAccessibility_eq_none_iff, reFullName, reEmail, rePhone, matchLit_eq_none_iff,
    matchLit_eq_none_iff, matchLit_eq_none_iff, Bool.eq_false_iff, ne_eq, reDigits_iff]
  tauto

/-! ## The labeled pass of `parseProgrammingModifiers` -/

theorem programmingStep_positional (st : ProgrammingRecord × List Str) (part : Str) :
    (programmingStep st part).1.gender = st.1.gender ∧
    (programmingStep st part).1.status = st.1.status ∧
    (programmingStep st part).1.year = st.1.year ∧
    (programmingStep st part).1.photoConsent = st.1.photoConsent := by
  unfold programmingStep
  simp only
  split_ifs <;> simp

theorem programmingStep_pool (st : ProgrammingRecord × List Str) (part : Str)
    (h : ∀ c ∈ st.2, c ≠ []) : ∀ c ∈ (programmingStep st part).2, c ≠ [] := by
  unfold programmingStep
  simp only
  split_ifs with h1 <;> try exact h
  intro c hc
  simp only [List.mem_append, List.mem_singleton] at hc
  rcases hc with hc | hc
  · exact h c hc
  · subst hc
    simpa using h1

theorem foldl_programmingStep_inv (parts : List Str) (st : ProgrammingRecord × List Str) :
    (parts.foldl programmingStep st).1.gender = st.1.gender ∧
    (parts.foldl programmingStep st).1.status = st.1.status ∧
    (parts.foldl programmingStep st).1.year = st.1.year ∧
    (parts.foldl programmingStep st).1.photoConsent = st.1.photoConsent ∧
    ((∀ c ∈ st.2, c ≠ []) → ∀ c ∈ (parts.foldl programmingStep st).2, c ≠ []) := by
  induction parts generalizing st with
  | nil => simp
  | cons p ps ih =>
    have h1 := programmingStep_positional st p
    have h2 := programmingStep_pool st p
    have h3 := ih (programmingStep st p)
    simp only [List.foldl_cons]
    refine ⟨h3.1.trans h1.1, h3.2.1.trans h1.2.1, h3.2.2.1.trans h1.2.2.1,
      h3.2.2.2.1.trans h1.2.2.2, fun h => h3.2.2.2.2 (h2 h)⟩

/-- After the labeled pass the positional fields are still empty and no clause
of the pool is empty. -/
theorem labeledPass_inv (parts : List Str) :
    (labeledPass parts).1.gender = [] ∧ (labeledPass parts).1.status = [] ∧
    (labeledPass parts).1.year = [] ∧ (labeledPass parts).1.photoConsent = [] ∧
    ∀ c ∈ (labeledPass parts).2, c ≠ [] := by
  have h := foldl_programmingStep_inv parts
    ({ fullName := [], email := [], gender := [], status := [], year := [],
       photoConsent := [], accessibility := [], event := [] }, [])
  exact ⟨h.1, h.2.1, h.2.2.1, h.2.2.2.1, h.2.2.2.2 (by simp)⟩

/-! ## The positional pass -/

theorem take_succ_at (pool : List Str) (i : Nat) (h : i < pool.length) :
    pool.take (i + 1) = pool.take i ++ [at_ pool i] := by
  rw [List.take_succ]
  congr 1
  simp [at_, List.getD, List.getElem?_eq_getElem h]

theorem at_ne_nil (pool : List Str) (hne : ∀ c ∈ pool, c ≠ []) (i : Nat) (h : i < pool.length) :
    at_ pool i ≠ [] := by
  have : at_ pool i = pool[i] := by simp [at_, List.getD, List.getElem?_eq_getElem h]
  rw [this]
  exact hne _ (List.getElem_mem h)

theorem at_isEmpty (pool : List Str) (hne : ∀ c ∈ pool, c ≠ []) (i : Nat)
    (h : i < pool.length) : (at_ pool i).isEmpty = false := by
  have := at_ne_nil pool hne i h
  cases hc : at_ pool i with
  | nil => exact absurd hc this
  | cons a b => rfl

/-- What the positional pass guarantees for any pool of non-empty clauses. -/
theorem positionalPass_spec (pool : List Str) (hne : ∀ c ∈ pool, c ≠ [])
    (r0 : ProgrammingRecord) (hg : r0.gender = []) (hs : r0.status = [])
    (hy : r0.year = []) (hp : r0.photoConsent = []) :
    ((positionalPass r0 pool).1.gender = [] ∨ isGender (positionalPass r0 pool).1.gender = true) ∧
    ((positionalPass r0 pool).1.status = [] ∨ isStatus (positionalPass r0 pool).1.status = true) ∧
    ((positionalPass r0 pool).1.year = [] ∨ reYear (positionalPass r0 pool).1.year = true) ∧
    ((positionalPass r0 pool).1.photoConsent = [] ∨
      reYesNo (positionalPass r0 pool).1.photoConsent = true) ∧
    positionalValues (positionalPass r0 pool).1 = pool.take (positionalPass r0 pool).2 := by
  simp only [positionalPass, takeGender, takeStatus, takeYear, takePhotoConsent]
  split_ifs
  all_goals simp only [Bool.and_eq_true, decide_eq_true_eq, Nat.zero_add] at *
  all_goals
    simp (disch := omega) only [positionalValues, hg, hs, hy, hp, take_succ_at, List.take_zero,
      List.nil_append, List.cons_append, true_or, or_true, and_true, true_and, List.filter_cons,
      List.filter_nil, List.isEmpty_nil, Bool.not_true, Bool.false_eq_true, if_false,
      at_isEmpty pool hne, Bool.not_false, if_true, *]

theorem isGender_iff (s : Str) : isGender s = true ↔ IsGenderWord s := by
  simp [isGender, IsGenderWord]

theorem isStatus_iff (s : Str) : isStatus s = true ↔ (¬ IsYearToken s ∧ ¬ IsYesNo s) := by
  rw [← reYear_iff, ← reYesNo_iff]
  simp [isStatus]

/-- A yes/no token is not a year token. -/
theorem not_isYearToken_of_isYesNo (s : Str) (h : IsYesNo s) : ¬ IsYearToken s := by
  rintro ⟨d, _, _, hs | hs⟩ <;> subst hs
  · rcases h with h | h <;> simp [SameUpToCase] at h
  · rcases h with h | h
    · simp [SameUpToCase] at h
    · simp only [SameUpToCase, List.map_cons, List.map_nil, String.toList, List.cons.injEq] at h
      exact absurd h.2.1 (by decide)

theorem includes_singleton (s : Str) (a : Char) : includes s [a] = true ↔ a ∈ s := by
  induction s with
  | nil => simp [includes, startsWith]
  | cons c cs ih =>
    simp only [includes, startsWith, Bool.or_eq_true, Bool.and_eq_true, beq_iff_eq, ih,
      List.mem_cons]
    cases cs <;> simp [startsWith]

/-- A clause that no labeled rule takes goes to the end of the pool. -/
theorem programmingStep_unlabeled (st : ProgrammingRecord × List Str) (c : Str)
    (hc : IsClause c) (hu : IsUnlabeled c) : programmingStep st c = (st.1, st.2 ++ [c]) := by
  obtain ⟨h1, h2, h3, h4, h5, h6⟩ := (isUnlabeled_iff c).1 hu
  have hat : includes c ['@'] = false := by
    rw [Bool.eq_false_iff]
    intro e
    exact h5 ((includes_singleton c '@').1 e)
  have hne : c.isEmpty = false := by
    cases c with
    | nil => exact absurd rfl hc.2
    | cons a b => rfl
  simp [programmingStep, hc.1, hne, h1, h2, h3, h4, h6, hat, isEmailClause]

theorem foldl_programmingStep_unlabeled (cl : List Str) (st : ProgrammingRecord × List Str)
    (h : ∀ c ∈ cl, IsClause c ∧ IsUnlabeled c) :
    cl.foldl programmingStep st = (st.1, st.2 ++ cl) := by
  induction cl generalizing st with
  | nil => simp
  | cons c cs ih =>
    rw [List.foldl_cons, programmingStep_unlabeled st c (h c (by simp)).1 (h c (by simp)).2,
      ih _ (fun x hx => h x (by simp [hx]))]
    simp

/-- C10: whatever the clauses, the record of `parseProgrammingModifiers` is
well-formed: gender is empty or a word of the gender vocabulary up to case,
year is empty or a digit optionally followed by a plus sign, photo consent is
empty or yes/no up to case, status is empty or neither a year token nor a
yes/no token, and the non-empty values among gender, status, year and photo
consent, in that order, are an initial segment of the pool of unlabeled
clauses. -/
theorem C10_programming_record_well_formed (parts : List Str) :
    ((parseProgrammingModifiers parts).gender = [] ∨
      IsGenderWord (parseProgrammingModifiers parts).gender) ∧
    ((parseProgrammingModifiers parts).year = [] ∨
      IsYearToken (parseProgrammingModifiers parts).year) ∧
    ((parseProgrammingModifiers parts).photoConsent = [] ∨
      IsYesNo (parseProgrammingModifiers parts).photoConsent) ∧
    ((parseProgrammingModifiers parts).status = [] ∨
      (¬ IsYearToken (parseProgrammingModifiers parts).status ∧
        ¬ IsYesNo (parseProgrammingModifiers parts).status)) ∧
    positionalValues (parseProgrammingModifiers parts) <+: (labeledPass parts).2 := by
  obtain ⟨hg, hs, hy, hp, hne⟩ := labeledPass_inv parts
  obtain ⟨k1, k2, k3, k4, k5⟩ :=
    positionalPass_spec (labeledPass parts).2 hne (labeledPass parts).1 hg hs hy hp
  simp only [parseProgrammingModifiers]
  rw [isGender_iff] at k1
  rw [isStatus_iff] at k2
  rw [reYear_iff] at k3
  rw [reYesNo_iff] at k4
  refine ⟨k1, k3, k4, k2, ?_⟩
  rw [k5]
  exact List.take_prefix _ _

/-- The positional pass on a pool that starts with the grammar. -/
theorem positionalPass_grammar (r0 : ProgrammingRecord) (G Y : Option Str) (S P : Str)
    (rest : List Str) (hG : ∀ g ∈ G, IsGenderWord g)
    (hS : ¬ IsYearToken S ∧ ¬ IsYesNo S ∧ (G = none → ¬ IsGenderWord S))
    (hY : ∀ y ∈ Y, IsYearToken y) (hP : IsYesNo P) :
    (positionalPass r0 (G.toList ++ [S] ++ Y.toList ++ [P] ++ rest)).1.gender
      = G.getD r0.gender ∧
    (positionalPass r0 (G.toList ++ [S] ++ Y.toList ++ [P] ++ rest)).1.status = S ∧
    (positionalPass r0 (G.toList ++ [S] ++ Y.toList ++ [P] ++ rest)).1.year = Y.getD r0.year ∧
    (positionalPass r0 (G.toList ++ [S] ++ Y.toList ++ [P] ++ rest)).1.photoConsent = P := by
  have hSt : isStatus S = true := (isStatus_iff S).2 ⟨hS.1, hS.2.1⟩
  have hPy : reYesNo P = true := (reYesNo_iff P).2 hP
  have hPn : reYear P = false := by
    rw [Bool.eq_false_iff, ne_eq, reYear_iff]
    exact not_isYearToken_of_isYesNo P hP
  cases G with
  | some g =>
    have hg : isGender g = true := (isGender_iff g).2 (hG g rfl)
    cases Y with
    | some y =>
      have hy : reYear y = true := (reYear_iff y).2 (hY y rfl)
      simp [positionalPass, takeGender, takeStatus, takeYear, takePhotoConsent, at_, hg, hSt,
        hy, hPy]
    | none =>
      simp [positionalPass, takeGender, takeStatus, takeYear, takePhotoConsent, at_, hg, hSt,
        hPn, hPy]
  | none =>
    have hg : isGender S = false := by
      rw [Bool.eq_false_iff, ne_eq, isGender_iff]
      exact hS.2.2 rfl
    cases Y with
    | some y =>
      have hy : reYear y = true := (reYear_iff y).2 (hY y rfl)
      simp [positionalPass, takeGender, takeStatus, takeYear, takePhotoConsent, at_, hg, hSt,
        hy, hPy]
    | none =>
      simp [positionalPass, takeGender, takeStatus, takeYear, takePhotoConsent, at_, hg, hSt,
        hPn, hPy]

/-- C1: a list of trimmed, non-empty clauses that no labeled rule takes and
that reads optional gender word, status, optional year token, yes/no token
(the status being no year token, no yes/no token and, when the gender is
left out, no gender word) is parsed into exactly these four fields. -/
theorem C1_positional_grammar (G Y : Option Str) (S P : Str)
    (hcl : ∀ c ∈ G.toList ++ [S] ++ Y.toList ++ [P], IsClause c ∧ IsUnlabeled c)
    (hG : ∀ g ∈ G, IsGenderWord g)
    (hS : ¬ IsYearToken S ∧ ¬ IsYesNo S ∧ (G = none → ¬ IsGenderWord S))
    (hY : ∀ y ∈ Y, IsYearToken y)
    (hP : IsYesNo P) :
    (parseProgrammingModifiers (G.toList ++ [S] ++ Y.toList ++ [P])).gender = G.getD [] ∧
    (parseProgrammingModifiers (G.toList ++ [S] ++ Y.toList ++ [P])).status = S ∧
    (parseProgrammingModifiers (G.toList ++ [S] ++ Y.toList ++ [P])).year = Y.getD [] ∧
    (parseProgrammingModifiers (G.toList ++ [S] ++ Y.toList ++ [P])).photoConsent = P := by
  have hpool := foldl_programmingStep_unlabeled _
    ({ fullName := [], email := [], gender := [], status := [], year := [],
       photoConsent := [], accessibility := [], event := [] }, []) hcl
  have h := positionalPass_grammar
    { fullName := [], email := [], gender := [], status := [], year := [],
      photoConsent := [], accessibility := [], event := [] } G Y S P [] hG hS hY hP
  simp only [List.append_nil] at h
  simp only [parseProgrammingModifiers, labeledPass, hpool, List.nil_append]
  exact h

/-- C1 at the two lists of the specification: status, year, consent without a
gender, and gender, status, consent without a year. -/
theorem C1_positional_grammar_witness :
    ((parseProgrammingModifiers ["Status Only".toList, "3".toList, "Yes".toList]).gender = [] ∧
     (parseProgrammingModifiers ["Status Only".toList, "3".toList, "Yes".toList]).status
        = "Status Only".toList ∧
     (parseProgrammingModifiers ["Status Only".toList, "3".toList, "Yes".toList]).year
        = "3".toList ∧
     (parseProgrammingModifiers ["Status Only".toList, "3".toList, "Yes".toList]).photoConsent
        = "Yes".toList) ∧
    ((parseProgrammingModifiers ["Female".toList, "Graduate".toList, "Yes".toList]).gender
        = "Female".toList ∧
     (parseProgrammingModifiers ["Female".toList, "Graduate".toList, "Yes".toList]).status
        = "Graduate".toList ∧
     (parseProgrammingModifiers ["Female".toList, "Graduate".toList, "Yes".toList]).year = [] ∧
     (parseProgrammingModifiers ["Female".toList, "Graduate".toList, "Yes".toList]).photoConsent
        = "Yes".toList) :=
  ⟨C1_positional_grammar none (some "3".toList) "Status Only".toList "Yes".toList
      (fun c hc => ⟨by revert c; decide, (isUnlabeled_iff c).2 (by revert c; decide)⟩) (by decide)
      ⟨by rw [← reYear_iff]; decide, by decide, fun _ => by decide⟩
      (fun y hy => by
        cases hy
        exact ⟨'3', by decide, by decide, Or.inl rfl⟩)
      (by decide),
   C1_positional_grammar (some "Female".toList) none "Graduate".toList "Yes".toList
      (fun c hc => ⟨by revert c; decide, (isUnlabeled_iff c).2 (by revert c; decide)⟩) (by decide)
      ⟨by rw [← reYear_iff]; decide, by decide, fun h => by cases h⟩
      (fun y hy => by cases hy) (by decide)⟩

/-! ## The loop of `processData` -/

theorem processData_eq_foldl (rows : List RawRow) :
    processData rows = rows.foldl (processRow (tableFormat rows)) emptyOutput := by
  cases rows <;> rfl

theorem rowVars_item (fmt : Bool) (row : RawRow) : (rowVars fmt row).item = itemOf fmt row := by
  cases fmt <;> rfl

/-- No row is both an Iftar row and a Programming row. -/
theorem rowVars_exclusive (fmt : Bool) (row : RawRow) :
    ((rowVars fmt row).isIftar && (rowVars fmt row).isProgramming) = false := by
  cases fmt
  · simp only [rowVars, Bool.false_eq_true, if_false]
    rw [Bool.eq_false_iff]
    intro h
    simp only [Bool.and_eq_true, beq_iff_eq] at h
    have := h.1.symm.trans h.2
    revert this
    decide
  · simp only [rowVars, if_true]
    cases search reIftar (trim (field row "Item Name".toList)) <;> simp

/-- The loop body, by cases on the row. -/
theorem processRow_cases (fmt : Bool) (out : Output) (row : RawRow) :
    processRow fmt out row =
      if yieldsIftar fmt row then
        { out with
          allIftarEntries := out.allIftarEntries ++ [iftarEntry (rowVars fmt row)]
          iftarEvents :=
            if (itemOf fmt row).isEmpty then out.iftarEvents
            else setAdd out.iftarEvents (itemOf fmt row) }
      else if yieldsProgramming fmt row then
        { out with
          allProgrammingEntries :=
            out.allProgrammingEntries ++ [programmingEntry (rowVars fmt row)]
          programmingEvents :=
            if (itemOf fmt row).isEmpty then out.programmingEvents
            else setAdd out.programmingEvents (itemOf fmt row) }
      else out := by
  simp only [processRow, yieldsIftar, yieldsProgramming, rowVars_item]
  by_cases hm : (rowVars fmt row).modifiers.isEmpty = true <;>
    by_cases hi : (rowVars fmt row).isIftar = true <;>
    by_cases hp : (rowVars fmt row).isProgramming = true <;> simp [hm, hi, hp]

/-- The result of the loop: which rows give the entries and the events. -/
theorem foldl_processRow (fmt : Bool) (rows : List RawRow) (out : Output) :
    rows.foldl (processRow fmt) out =
      { allIftarEntries :=
          out.allIftarEntries ++
            (rows.filter (yieldsIftar fmt)).map fun r => iftarEntry (rowVars fmt r)
        allProgrammingEntries :=
          out.allProgrammingEntries ++
            (rows.filter (yieldsProgramming fmt)).map fun r => programmingEntry (rowVars fmt r)
        iftarEvents :=
          addEvents out.iftarEvents ((rows.filter (yieldsIftar fmt)).map (itemOf fmt))
        programmingEvents :=
          addEvents out.programmingEvents
            ((rows.filter (yieldsProgramming fmt)).map (itemOf fmt)) } := by
  induction rows generalizing out with
  | nil => simp [addEvents]
  | cons r rs ih =>
    rw [List.foldl_cons, ih, processRow_cases]
    have hx : yieldsIftar fmt r = true → yieldsProgramming fmt r = false := by
      intro h
      simp only [yieldsIftar, Bool.and_eq_true] at h
      simp [yieldsProgramming, h.2]
    by_cases h1 : yieldsIftar fmt r = true
    · have h2 := hx h1
      by_cases h3 : (itemOf fmt r).isEmpty = true
      · simp [h1, h2, h3, addEvents]
      · simp [h1, h2, h3, addEvents]
    · have h1f : yieldsIftar fmt r = false := by simpa using h1
      by_cases h2 : yieldsProgramming fmt r = true
      · by_cases h3 : (itemOf fmt r).isEmpty = true
        · simp [h1f, h2, h3, addEvents]
        · simp [h1f, h2, h3, addEvents]
      · have h2f : yieldsProgramming fmt r = false := by simpa using h2
        simp [h1f, h2f]

/-! ## Event sets -/

theorem mem_firstOccurrences (l : List Str) (y : Str) : y ∈ firstOccurrences l ↔ y ∈ l := by
  induction l with
  | nil => simp [firstOccurrences]
  | cons x xs ih =>
    simp only [firstOccurrences, List.mem_cons, List.mem_filter, ih, decide_eq_true_eq]
    by_cases h : y = x <;> simp [h]

theorem nodup_firstOccurrences (l : List Str) : (firstOccurrences l).Nodup := by
  induction l with
  | nil => simp [firstOccurrences]
  | cons x xs ih =>
    simp only [firstOccurrences, List.nodup_cons, List.mem_filter, decide_eq_true_eq]
    exact ⟨fun h => h.2 rfl, ih.filter _⟩

theorem firstOccurrences_filter (p : Str → Bool) (l : List Str) :
    firstOccurrences (l.filter p) = (firstOccurrences l).filter p := by
  induction l with
  | nil => simp [firstOccurrences]
  | cons x xs ih =>
    by_cases h : p x = true
    · simp only [List.filter_cons, h, if_true, firstOccurrences, ih, List.filter_filter]
      congr 1
      apply List.filter_congr
      intro y _
      exact Bool.and_comm _ _
    · have hf : p x = false := by simpa using h
      simp only [List.filter_cons, hf, firstOccurrences, List.filter_filter]
      simp only [Bool.false_eq_true, if_false]
      rw [ih]
      apply List.filter_congr
      intro y _
      by_cases hy : y = x
      · subst hy; simp [hf]
      · simp [hy]

/-- Folding `setAdd` appends the new values in the order of their first
occurrence. -/
theorem foldl_setAdd (xs acc : List Str) :
    xs.foldl setAdd acc = acc ++ firstOccurrences (xs.filter fun y => decide (y ∉ acc)) := by
  induction xs generalizing acc with
  | nil => simp [firstOccurrences]
  | cons x t ih =>
    rw [List.foldl_cons, ih]
    by_cases h : x ∈ acc
    · simp [setAdd, h]
    · simp only [setAdd, h, if_false, List.append_assoc, List.filter_cons, decide_not,
        decide_False, Bool.not_false, if_true, firstOccurrences, List.singleton_append]
      congr 2
      rw [← firstOccurrences_filter, List.filter_filter]
      congr 1
      apply List.filter_congr
      intro y _
      by_cases hy : y = x <;> simp [hy, Bool.and_comm]

theorem addEvents_nil (items : List Str) :
    addEvents [] items = firstOccurrences (items.filter fun i => !i.isEmpty) := by
  simp [addEvents, foldl_setAdd]

theorem iftarEntry_event (v : RowVars) : (iftarEntry v).event = v.item := by
  simp only [iftarEntry]

theorem programmingEntry_event (v : RowVars) : (programmingEntry v).event = v.item := by
  simp only [programmingEntry]

/-- The outputs of `processData` in closed form. -/
theorem processData_closed (rows : List RawRow) :
    processData rows =
      { allIftarEntries :=
          (rows.filter (yieldsIftar (tableFormat rows))).map
            fun r => iftarEntry (rowVars (tableFormat rows) r)
        allProgrammingEntries :=
          (rows.filter (yieldsProgramming (tableFormat rows))).map
            fun r => programmingEntry (rowVars (tableFormat rows) r)
        iftarEvents :=
          firstOccurrences
            (((rows.filter (yieldsIftar (tableFormat rows))).map
              (itemOf (tableFormat rows))).filter fun i => !i.isEmpty)
        programmingEvents :=
          firstOccurrences
            (((rows.filter (yieldsProgramming (tableFormat rows))).map
              (itemOf (tableFormat rows))).filter fun i => !i.isEmpty) } := by
  rw [processData_eq_foldl, foldl_processRow]
  simp [emptyOutput, addEvents_nil]

theorem not_mem_nil_firstOccurrences (l : List Str) :
    [] ∉ firstOccurrences (l.filter fun i => !i.isEmpty) := by
  rw [mem_firstOccurrences]
  simp

/-- C8: the event list of each category has no empty string and no duplicate,
it lists the non-empty `event` values of the category's records in the order
of their first occurrence, and the `event` of each record is the trimmed item
string of the row it comes from. -/
theorem C8_event_lists (rows : List RawRow) :
    (processData rows).iftarEvents =
      firstOccurrences
        (((processData rows).allIftarEntries.map fun e => e.event).filter fun i => !i.isEmpty) ∧
    (processData rows).iftarEvents.Nodup ∧ [] ∉ (processData rows).iftarEvents ∧
    (processData rows).programmingEvents =
      firstOccurrences
        (((processData rows).allProgrammingEntries.map fun e => e.event).filter
          fun i => !i.isEmpty) ∧
    (processData rows).programmingEvents.Nodup ∧ [] ∉ (processData rows).programmingEvents ∧
    ((processData rows).allIftarEntries.map fun e => e.event) =
      (rows.filter (yieldsIftar (tableFormat rows))).map (itemOf (tableFormat rows)) ∧
    ((processData rows).allProgrammingEntries.map fun e => e.event) =
      (rows.filter (yieldsProgramming (tableFormat rows))).map (itemOf (tableFormat rows)) := by
  have hi : ((processData rows).allIftarEntries.map fun e => e.event) =
      (rows.filter (yieldsIftar (tableFormat rows))).map (itemOf (tableFormat rows)) := by
    rw [processData_closed]
    simp [iftarEntry_event, rowVars_item]
  have hp : ((processData rows).allProgrammingEntries.map fun e => e.event) =
      (rows.filter (yieldsProgramming (tableFormat rows))).map (itemOf (tableFormat rows)) := by
    rw [processData_closed]
    simp [programmingEntry_event, rowVars_item]
  have ei : (processData rows).iftarEvents = firstOccurrences
      (((rows.filter (yieldsIftar (tableFormat rows))).map
        (itemOf (tableFormat rows))).filter fun i => !i.isEmpty) := by
    rw [processData_closed]
  have ep : (processData rows).programmingEvents = firstOccurrences
      (((rows.filter (yieldsProgramming (tableFormat rows))).map
        (itemOf (tableFormat rows))).filter fun i => !i.isEmpty) := by
    rw [processData_closed]
  refine ⟨?_, ?_, ?_, ?_, ?_, ?_, hi, hp⟩
  · rw [hi, ei]
  · rw [ei]; exact nodup_firstOccurrences _
  · rw [ei]; exact not_mem_nil_firstOccurrences _
  · rw [hp, ep]
  · rw [ep]; exact nodup_firstOccurrences _
  · rw [ep]; exact not_mem_nil_firstOccurrences _

/-! ## Classification of rows -/

/-- C6: in either format the loop body pushes exactly one record, to the
Iftar collection when the trimmed modifiers are non-empty and the row is an
Iftar row, to the Programming collection when they are non-empty and the row
is a Programming row, and never to both; any other row, in particular one
with empty or blank modifiers, changes nothing.  So the two collections
together hold as many records as there are rows with non-empty trimmed
modifiers and a category. -/
theorem C6_one_record_per_row (rows : List RawRow) :
    (∀ (fmt : Bool) (out : Output) (row : RawRow),
      ((rowVars fmt row).isIftar && (rowVars fmt row).isProgramming) = false ∧
      ((rowVars fmt row).modifiers ≠ [] → (rowVars fmt row).isIftar = true →
        (processRow fmt out row).allIftarEntries =
            out.allIftarEntries ++ [iftarEntry (rowVars fmt row)] ∧
          (processRow fmt out row).allProgrammingEntries = out.allProgrammingEntries) ∧
      ((rowVars fmt row).modifiers ≠ [] → (rowVars fmt row).isProgramming = true →
        (processRow fmt out row).allProgrammingEntries =
            out.allProgrammingEntries ++ [programmingEntry (rowVars fmt row)] ∧
          (processRow fmt out row).allIftarEntries = out.allIftarEntries) ∧
      ((rowVars fmt row).modifiers = [] ∨
          ((rowVars fmt row).isIftar = false ∧ (rowVars fmt row).isProgramming = false) →
        processRow fmt out row = out)) ∧
    (processData rows).allIftarEntries.length + (processData rows).allProgrammingEntries.length =
      (rows.filter fun r =>
        !(rowVars (tableFormat rows) r).modifiers.isEmpty &&
          ((rowVars (tableFormat rows) r).isIftar ||
            (rowVars (tableFormat rows) r).isProgramming)).length := by
  constructor
  · intro fmt out row
    have hx := rowVars_exclusive fmt row
    refine ⟨hx, ?_, ?_, ?_⟩
    · intro hm hi
      have hm2 : (rowVars fmt row).modifiers.isEmpty = false := by
        cases h : (rowVars fmt row).modifiers with
        | nil => exact absurd h hm
        | cons a b => rfl
      simp [processRow, hm2, hi]
    · intro hm hp
      have hm2 : (rowVars fmt row).modifiers.isEmpty = false := by
        cases h : (rowVars fmt row).modifiers with
        | nil => exact absurd h hm
        | cons a b => rfl
      have hi : (rowVars fmt row).isIftar = false := by
        rw [hp] at hx
        simpa using hx
      simp [processRow, hm2, hi, hp]
    · rintro (hm | ⟨hi, hp⟩)
      · simp [processRow, hm]
      · simp [processRow, hi, hp]
  · rw [processData_closed]
    simp only [List.length_map]
    generalize tableFormat rows = fmt
    induction rows with
    | nil => rfl
    | cons r rs ih =>
      have hx := rowVars_exclusive fmt r
      simp only [List.filter_cons, yieldsIftar, yieldsProgramming] at ih ⊢
      by_cases hm : (rowVars fmt r).modifiers.isEmpty = true <;>
        by_cases hi : (rowVars fmt r).isIftar = true <;>
        by_cases hp : (rowVars fmt r).isProgramming = true <;>
        simp [hi, hp] at hx <;> simp [hm, hi, hp] <;> omega

/-- C6 on a table of the orders export with one Iftar row, one Programming
row and one row with blank modifiers. -/
theorem C6_one_record_per_row_witness :
    (processData
      [[("Item Name".toList, "Iftar Mar 3".toList), ("Item Modifiers".toList, "1 x Yes".toList)],
       [("Item Name".toList, "Halaqa".toList), ("Item Modifiers".toList, "1 x Yes".toList)],
       [("Item Name".toList, "Halaqa".toList), ("Item Modifiers".toList, "  ".toList)]]
      ).allIftarEntries.length +
    (processData
      [[("Item Name".toList, "Iftar Mar 3".toList), ("Item Modifiers".toList, "1 x Yes".toList)],
       [("Item Name".toList, "Halaqa".toList), ("Item Modifiers".toList, "1 x Yes".toList)],
       [("Item Name".toList, "Halaqa".toList), ("Item Modifiers".toList, "  ".toList)]]
      ).allProgrammingEntries.length = 2 :=
  (C6_one_record_per_row
    [[("Item Name".toList, "Iftar Mar 3".toList), ("Item Modifiers".toList, "1 x Yes".toList)],
     [("Item Name".toList, "Halaqa".toList), ("Item Modifiers".toList, "1 x Yes".toList)],
     [("Item Name".toList, "Halaqa".toList), ("Item Modifiers".toList, "  ".toList)]]).2.trans
    (by decide)

/-- C9, counterexample: in the items export a row whose `Category` cell is
the Iftar label preceded by a blank yields an Iftar record, although the cell
read verbatim differs from the label. -/
theorem C9_counterexample :
    isOrdersFormat
      [("Category".toList, " Ramadan Iftars 2026".toList), ("Item".toList, "Mar 3".toList),
       ("Modifiers Applied".toList, "Full Name: Jane Doe".toList)] = false ∧
    field
      [("Category".toList, " Ramadan Iftars 2026".toList), ("Item".toList, "Mar 3".toList),
       ("Modifiers Applied".toList, "Full Name: Jane Doe".toList)] "Category".toList
        ≠ "Ramadan Iftars 2026".toList ∧
    (processData
      [[("Category".toList, " Ramadan Iftars 2026".toList), ("Item".toList, "Mar 3".toList),
        ("Modifiers Applied".toList, "Full Name: Jane Doe".toList)]]).allIftarEntries =
      [{ fullName := "Jane Doe".toList, email := [], dietaryRestrictions := [],
         event := "Mar 3".toList }] := by
  decide

/-- C9, amended: in the items export (first row without the key `Item Name`)
the loop runs with the legacy mapping, and a row with non-empty modifiers
yields an Iftar record exactly when its trimmed `Category` cell equals
`Ramadan Iftars 2026`, a Programming record exactly when the trimmed cell
equals `Ramadan Programming 2026`, and no record for any other value. -/
theorem C9_legacy_category_trimmed (row0 : RawRow) (rest : List RawRow)
    (hLegacy : hasKey row0 "Item Name".toList = false) (out : Output) (row : RawRow)
    (hmod : (rowVars false row).modifiers ≠ []) :
    processData (row0 :: rest) = (row0 :: rest).foldl (processRow false) emptyOutput ∧
    ((processRow false out row).allIftarEntries.length = out.allIftarEntries.length + 1 ↔
      trim (field row "Category".toList) = "Ramadan Iftars 2026".toList) ∧
    ((processRow false out row).allProgrammingEntries.length
        = out.allProgrammingEntries.length + 1 ↔
      trim (field row "Category".toList) = "Ramadan Programming 2026".toList) ∧
    (trim (field row "Category".toList) ≠ "Ramadan Iftars 2026".toList →
      trim (field row "Category".toList) ≠ "Ramadan Programming 2026".toList →
      processRow false out row = out) := by
  have hm2 : (rowVars false row).modifiers.isEmpty = false := by
    cases h : (rowVars false row).modifiers with
    | nil => exact absurd h hmod
    | cons a b => rfl
  have hne : "Ramadan Iftars 2026".toList ≠ "Ramadan Programming 2026".toList := by decide
  have hI : (rowVars false row).isIftar =
      (trim (field row "Category".toList) == "Ramadan Iftars 2026".toList) := rfl
  have hP : (rowVars false row).isProgramming =
      (trim (field row "Category".toList) == "Ramadan Programming 2026".toList) := rfl
  refine ⟨?_, ?_, ?_, ?_⟩
  · simp only [processData, isOrdersFormat, hLegacy]
  · by_cases h : trim (field row "Category".toList) = "Ramadan Iftars 2026".toList
    · have hi : (rowVars false row).isIftar = true := by rw [hI, h]; rfl
      simp only [processRow, hm2, hi, h]
      simp
    · have hi : (rowVars false row).isIftar = false := by rw [hI]; simpa using h
      simp only [processRow, hm2, hi, h]
      by_cases hp : (rowVars false row).isProgramming = true <;> simp [hp]
  · by_cases h : trim (field row "Category".toList) = "Ramadan Programming 2026".toList
    · have hp : (rowVars false row).isProgramming = true := by rw [hP, h]; rfl
      have hi : (rowVars false row).isIftar = false := by
        rw [hI, h]; decide
      simp only [processRow, hm2, hi, hp, h]
      simp
    · have hp : (rowVars false row).isProgramming = false := by rw [hP]; simpa using h
      simp only [processRow, hm2, hp, h]
      by_cases hi : (rowVars false row).isIftar = true <;> simp [hi]
  · intro h1 h2
    have hi : (rowVars false row).isIftar = false := by rw [hI]; simpa using h1
    have hp : (rowVars false row).isProgramming = false := by rw [hP]; simpa using h2
    simp [processRow, hi, hp]

/-- C9 at a table of the items export with one Iftar row. -/
theorem C9_legacy_category_trimmed_witness :
    (processRow false emptyOutput
        [("Category".toList, "Ramadan Iftars 2026".toList), ("Item".toList, "Mar 3".toList),
         ("Modifiers Applied".toList, "Full Name: Jane Doe".toList)]).allIftarEntries.length
      = emptyOutput.allIftarEntries.length + 1 ↔
    trim (field
        [("Category".toList, "Ramadan Iftars 2026".toList), ("Item".toList, "Mar 3".toList),
         ("Modifiers Applied".toList, "Full Name: Jane Doe".toList)] "Category".toList)
      = "Ramadan Iftars 2026".toList :=
  (C9_legacy_category_trimmed
    [("Category".toList, "Ramadan Iftars 2026".toList), ("Item".toList, "Mar 3".toList),
     ("Modifiers Applied".toList, "Full Name: Jane Doe".toList)] [] (by decide) emptyOutput
    [("Category".toList, "Ramadan Iftars 2026".toList), ("Item".toList, "Mar 3".toList),
     ("Modifiers Applied".toList, "Full Name: Jane Doe".toList)] (by decide)).2.1

/-! ## Name and e-mail of a record -/

/-- A fold that overwrites a field at every part satisfying `p` ends with the
value of the last such part. -/
theorem foldl_last_value {R : Type} (f : R → Str → R) (proj : R → Str) (p : Str → Bool)
    (val : Str → Str) (hstep : ∀ r part, proj (f r part) = if p part then val part else proj r)
    (parts : List Str) (r0 : R) :
    proj (parts.foldl f r0) =
      match (parts.filter p).getLast? with
      | some c => val c
      | none => proj r0 := by
  induction parts using List.reverseRecOn with
  | nil => rfl
  | append_singleton ps x ih =>
    rw [List.foldl_append, List.foldl_cons, List.foldl_nil, hstep, List.filter_append]
    by_cases hx : p x = true
    · simp [hx]
    · have hx2 : p x = false := by simpa using hx
      simp [hx2, ih]

theorem iftarStep_fullName (r : IftarRecord) (part : Str) :
    (iftarStep r part).fullName = if isNameClause part then nameValueOf part else r.fullName := by
  simp only [iftarStep, isNameClause, nameValueOf]
  by_cases h1 : (trim part).isEmpty = true
  · simp [h1]
  · by_cases h2 : (reFullName (trim part)).isSome = true
    · simp [h1, h2]
    · simp only [h1, h2, Bool.false_eq_true, if_false]
      split_ifs <;> simp_all

theorem iftarStep_email (r : IftarRecord) (part : Str) :
    (iftarStep r part).email = if isIftarEmailClause part then emailValueOf part else r.email := by
  simp only [iftarStep, isIftarEmailClause, emailValueOf]
  by_cases h1 : (trim part).isEmpty = true
  · simp [h1]
  · by_cases h2 : (reFullName (trim part)).isSome = true
    · simp [h1, h2]
    · by_cases h3 : isEmailClause (trim part) = true
      · simp [h1, h2, h3]
      · simp only [h1, h2, h3, Bool.false_eq_true, if_false]
        split_ifs <;> simp_all

theorem programmingStep_fullName (st : ProgrammingRecord × List Str) (part : Str) :
    (programmingStep st part).1.fullName =
      if isNameClause part then nameValueOf part else st.1.fullName := by
  simp only [programmingStep, isNameClause, nameValueOf]
  by_cases h1 : (trim part).isEmpty = true
  · simp [h1]
  · by_cases h2 : (reFullName (trim part)).isSome = true
    · simp [h1, h2]
    · simp only [h1, h2, Bool.false_eq_true, if_false]
      split_ifs <;> simp_all

theorem programmingStep_email (st : ProgrammingRecord × List Str) (part : Str) :
    (programmingStep st part).1.email =
      if isProgrammingEmailClause part then emailValueOf part else st.1.email := by
  simp only [programmingStep, isProgrammingEmailClause, emailValueOf]
  by_cases h1 : (trim part).isEmpty = true
  · simp [h1]
  · by_cases h2 : (reFullName (trim part)).isSome = true
    · simp [h1, h2]
    · by_cases h3 : (reAccessibility (trim part)).isSome = true
      · simp [h1, h2, h3]
      · by_cases h4 : isEmailClause (trim part) = true
        · simp [h1, h2, h3, h4]
        · simp only [h1, h2, h3, h4, Bool.false_eq_true, if_false]
          split_ifs <;> simp_all

theorem parseIftarModifiers_fullName (parts : List Str) :
    (parseIftarModifiers parts).fullName = lastValue parts isNameClause nameValueOf :=
  foldl_last_value iftarStep (fun r => r.fullName) isNameClause nameValueOf
    iftarStep_fullName parts _

theorem parseIftarModifiers_email (parts : List Str) :
    (parseIftarModifiers parts).email = lastValue parts isIftarEmailClause emailValueOf :=
  foldl_last_value iftarStep (fun r => r.email) isIftarEmailClause emailValueOf
    iftarStep_email parts _

theorem positionalPass_labeled (r0 : ProgrammingRecord) (pool : List Str) :
    (positionalPass r0 pool).1.fullName = r0.fullName ∧
    (positionalPass r0 pool).1.email = r0.email := by
  simp only [positionalPass, takeGender, takeStatus, takeYear, takePhotoConsent]
  split_ifs <;> simp

theorem parseProgrammingModifiers_fullName (parts : List Str) :
    (parseProgrammingModifiers parts).fullName = lastValue parts isNameClause nameValueOf := by
  simp only [parseProgrammingModifiers, (positionalPass_labeled _ _).1]
  exact foldl_last_value programmingStep (fun st => st.1.fullName) isNameClause nameValueOf
    programmingStep_fullName parts _

theorem parseProgrammingModifiers_email (parts : List Str) :
    (parseProgrammingModifiers parts).email =
      lastValue parts isProgrammingEmailClause emailValueOf := by
  simp only [parseProgrammingModifiers, (positionalPass_labeled _ _).2]
  exact foldl_last_value programmingStep (fun st => st.1.email) isProgrammingEmailClause
    emailValueOf programmingStep_email parts _

theorem rowVars_recipientName (fmt : Bool) (row : RawRow) :
    (rowVars fmt row).recipientName = recipientFallback fmt row "Recipient Name".toList := by
  cases fmt <;> rfl

theorem rowVars_email (fmt : Bool) (row : RawRow) :
    (rowVars fmt row).email = recipientFallback fmt row "Recipient Email".toList := by
  cases fmt <;> rfl

/-- C7, counterexample: a row of the orders export whose only clause is the
name clause `Full Name:` with nothing after the colon.  The value of that
clause is the empty string, yet the record's name is the recipient column. -/
theorem C7_counterexample :
    splitModifiers (rowVars true
      [("Item Name".toList, "Iftar Mar 3".toList),
       ("Item Modifiers".toList, "1 x Full Name:".toList),
       ("Recipient Name".toList, "Bob".toList)]).modifiers = ["Full Name:".toList] ∧
    isNameClause "Full Name:".toList = true ∧
    nameValueOf "Full Name:".toList = [] ∧
    ((processData
      [[("Item Name".toList, "Iftar Mar 3".toList),
        ("Item Modifiers".toList, "1 x Full Name:".toList),
        ("Recipient Name".toList, "Bob".toList)]]).allIftarEntries.map fun e => e.fullName)
      = ["Bob".toList] := by
  decide

/-- C7, amended: every record comes from `iftarEntry` or `programmingEntry`
of its row, and there the name (resp. e-mail) is the value of the last name
(resp. e-mail) clause when such a clause exists and its value is not empty;
otherwise it is the trimmed `Recipient Name` (resp. `Recipient Email`) cell
in the orders export and the empty string in the items export. -/
theorem C7_name_email_fallback (rows : List RawRow) :
    ((processData rows).allIftarEntries =
      (rows.filter (yieldsIftar (tableFormat rows))).map
        fun r => iftarEntry (rowVars (tableFormat rows) r)) ∧
    ((processData rows).allProgrammingEntries =
      (rows.filter (yieldsProgramming (tableFormat rows))).map
        fun r => programmingEntry (rowVars (tableFormat rows) r)) ∧
    ∀ (fmt : Bool) (row : RawRow),
      (iftarEntry (rowVars fmt row)).fullName =
        orFallback (lastValue (splitModifiers (rowVars fmt row).modifiers) isNameClause nameValueOf)
          (recipientFallback fmt row "Recipient Name".toList) ∧
      (iftarEntry (rowVars fmt row)).email =
        orFallback
          (lastValue (splitModifiers (rowVars fmt row).modifiers) isIftarEmailClause emailValueOf)
          (recipientFallback fmt row "Recipient Email".toList) ∧
      (programmingEntry (rowVars fmt row)).fullName =
        orFallback (lastValue (splitModifiers (rowVars fmt row).modifiers) isNameClause nameValueOf)
          (recipientFallback fmt row "Recipient Name".toList) ∧
      (programmingEntry (rowVars fmt row)).email =
        orFallback
          (lastValue (splitModifiers (rowVars fmt row).modifiers) isProgrammingEmailClause
            emailValueOf)
          (recipientFallback fmt row "Recipient Email".toList) := by
  refine ⟨by rw [processData_closed], by rw [processData_closed], ?_⟩
  intro fmt row
  rw [← rowVars_recipientName, ← rowVars_email]
  generalize rowVars fmt row = v
  have h1 := parseIftarModifiers_fullName (splitModifiers v.modifiers)
  have h2 := parseIftarModifiers_email (splitModifiers v.modifiers)
  have h3 := parseProgrammingModifiers_fullName (splitModifiers v.modifiers)
  have h4 := parseProgrammingModifiers_email (splitModifiers v.modifiers)
  simp only [iftarEntry, programmingEntry, orFallback, ← h1, ← h2, ← h3, ← h4]
  refine ⟨?_, ?_, ?_, ?_⟩ <;> split_ifs <;> simp_all

/-! ## Status and photo consent -/

theorem pool_eq_take_drop (pool : List Str) (k : Nat) : pool = pool.take k ++ pool.drop k :=
  (List.take_append_drop k pool).symm

/-- When the positional pass fills both status and photo consent, the pool
starts with the grammar. -/
theorem followsGrammar_of_positionalPass (pool : List Str) (r0 : ProgrammingRecord)
    (hs : r0.status = []) (hp : r0.photoConsent = [])
    (h : (positionalPass r0 pool).1.status ≠ [] ∧ (positionalPass r0 pool).1.photoConsent ≠ []) :
    FollowsGrammar pool := by
  simp only [positionalPass, takeGender, takeStatus, takeYear, takePhotoConsent] at h
  split_ifs at h
  all_goals simp only [Bool.and_eq_true, decide_eq_true_eq, Nat.zero_add, hs, hp, ne_eq,
    not_true_eq_false, false_and, and_false] at *
  · rename_i g s y p
    refine ⟨some (at_ pool 0), some (at_ pool 2), at_ pool 1, at_ pool 3, pool.drop 4, ?_,
      ?_, ?_, ?_, ?_, ?_, ?_⟩
    · conv_lhs => rw [pool_eq_take_drop pool 4]
      simp (disch := omega) [take_succ_at]
    · intro x hx; cases hx; exact (isGender_iff _).1 g.2
    · exact ((isStatus_iff _).1 s.2).1
    · exact ((isStatus_iff _).1 s.2).2
    · intro e; cases e
    · intro x hx; cases hx; exact (reYear_iff _).1 y.2
    · exact (reYesNo_iff _).1 p.2
  · rename_i g s y p
    refine ⟨some (at_ pool 0), none, at_ pool 1, at_ pool 2, pool.drop 3, ?_,
      ?_, ?_, ?_, ?_, ?_, ?_⟩
    · conv_lhs => rw [pool_eq_take_drop pool 3]
      simp (disch := omega) [take_succ_at]
    · intro x hx; cases hx; exact (isGender_iff _).1 g.2
    · exact ((isStatus_iff _).1 s.2).1
    · exact ((isStatus_iff _).1 s.2).2
    · intro e; cases e
    · intro x hx; cases hx
    · exact (reYesNo_iff _).1 p.2
  · rename_i g s y p
    refine ⟨none, some (at_ pool 1), at_ pool 0, at_ pool 2, pool.drop 3, ?_,
      ?_, ?_, ?_, ?_, ?_, ?_⟩
    · conv_lhs => rw [pool_eq_take_drop pool 3]
      simp (disch := omega) [take_succ_at]
    · intro x hx; cases hx
    · exact ((isStatus_iff _).1 s.2).1
    · exact ((isStatus_iff _).1 s.2).2
    · intro _ e
      exact g ⟨s.1, (isGender_iff _).2 e⟩
    · intro x hx; cases hx; exact (reYear_iff _).1 y.2
    · exact (reYesNo_iff _).1 p.2
  · rename_i g s y p
    refine ⟨none, none, at_ pool 0, at_ pool 1, pool.drop 2, ?_,
      ?_, ?_, ?_, ?_, ?_, ?_⟩
    · conv_lhs => rw [pool_eq_take_drop pool 2]
      simp (disch := omega) [take_succ_at]
    · intro x hx; cases hx
    · exact ((isStatus_iff _).1 s.2).1
    · exact ((isStatus_iff _).1 s.2).2
    · intro _ e
      exact g ⟨s.1, (isGender_iff _).2 e⟩
    · intro x hx; cases hx
    · exact (reYesNo_iff _).1 p.2

theorem programmingEntry_positional (v : RowVars) :
    (programmingEntry v).status
      = (parseProgrammingModifiers (splitModifiers v.modifiers)).status ∧
    (programmingEntry v).photoConsent
      = (parseProgrammingModifiers (splitModifiers v.modifiers)).photoConsent := by
  simp only [programmingEntry]
  split_ifs <;> simp

/-- C5, counterexample: a Programming row of the orders export whose modifiers
hold only a name clause gives a record with empty status and empty photo
consent. -/
theorem C5_counterexample :
    (processData
      [[("Item Name".toList, "Halaqa".toList),
        ("Item Modifiers".toList, "1 x Full Name: Jane Doe".toList)]]).allProgrammingEntries =
      [{ fullName := "Jane Doe".toList, email := [], gender := [], status := [], year := [],
         photoConsent := [], accessibility := [], event := "Halaqa".toList }] := by
  decide

/-- C5, amended: every Programming record is `programmingEntry` of its row,
and there status and photo consent are both non-empty exactly when the
unlabeled clauses of the row start with the grammar optional gender, status,
optional year, yes/no; for any other row one of the two is the empty
string. -/
theorem C5_status_and_consent_iff_grammar (rows : List RawRow) :
    ((processData rows).allProgrammingEntries =
      (rows.filter (yieldsProgramming (tableFormat rows))).map
        fun r => programmingEntry (rowVars (tableFormat rows) r)) ∧
    ∀ (fmt : Bool) (row : RawRow),
      ((programmingEntry (rowVars fmt row)).status ≠ [] ∧
        (programmingEntry (rowVars fmt row)).photoConsent ≠ []) ↔
      FollowsGrammar (labeledPass (splitModifiers (rowVars fmt row).modifiers)).2 := by
  refine ⟨by rw [processData_closed], ?_⟩
  intro fmt row
  generalize rowVars fmt row = v
  rw [(programmingEntry_positional v).1, (programmingEntry_positional v).2]
  simp only [parseProgrammingModifiers]
  obtain ⟨_, hs, _, hp, hne⟩ := labeledPass_inv (splitModifiers v.modifiers)
  constructor
  · exact followsGrammar_of_positionalPass _ _ hs hp
  · rintro ⟨G, Y, S, P, rest, hpool, hG, hS1, hS2, hS3, hY, hP⟩
    have h := positionalPass_grammar (labeledPass (splitModifiers v.modifiers)).1 G Y S P rest
      hG ⟨hS1, hS2, hS3⟩ hY hP
    rw [← hpool] at h
    rw [h.2.1, h.2.2.2]
    constructor
    · exact hne S (by rw [hpool]; simp)
    · rintro rfl
      revert hP
      decide

/-! ## The dietary answer -/

theorem startsWith_iff_prefix (pat s : Str) : startsWith pat s = true ↔ pat <+: s := by
  induction pat generalizing s with
  | nil => simp [startsWith]
  | cons p ps ih =>
    cases s with
    | nil => simp [startsWith]
    | cons c cs => simp [startsWith, ih]

theorem includes_iff_infix (s pat : Str) : includes s pat = true ↔ pat <:+: s := by
  induction s with
  | nil =>
    simp only [includes, startsWith_iff_prefix, List.prefix_nil, List.infix_nil]
  | cons c cs ih =>
    simp only [includes, Bool.or_eq_true, startsWith_iff_prefix, ih, List.infix_cons_iff]

/-- Where the pattern does not occur, `lastIndexOf` answers `-1`. -/
theorem lastIndexOf_of_not_infix (s pat : Str) (h : ¬ pat <:+: s) : lastIndexOf s pat = -1 := by
  induction s with
  | nil =>
    have : startsWith pat [] = false := by
      rw [Bool.eq_false_iff, ne_eq, startsWith_iff_prefix]
      intro e
      exact h e.isInfix
    simp [lastIndexOf, this]
  | cons c cs ih =>
    rw [List.infix_cons_iff, not_or] at h
    have h1 : startsWith pat (c :: cs) = false := by
      rw [Bool.eq_false_iff, ne_eq, startsWith_iff_prefix]
      exact h.1
    simp [lastIndexOf, ih h.2, h1]

/-- The index of the last colon-space: after it, no further colon-space. -/
theorem lastIndexOf_colon_space (pre post : Str) (h : ¬ [':', ' '] <:+: post) :
    lastIndexOf (pre ++ [':', ' '] ++ post) [':', ' '] = pre.length := by
  induction pre with
  | nil =>
    have h1 : lastIndexOf post [':', ' '] = -1 := lastIndexOf_of_not_infix _ _ h
    simp [lastIndexOf, h1, startsWith]
  | cons c cs ih =>
    show lastIndexOf (c :: (cs ++ [':', ' '] ++ post)) [':', ' '] = _
    unfold lastIndexOf
    simp only [ih, List.length_cons]
    rw [if_pos (by omega)]
    push_cast
    ring

/-- C4: for a trimmed clause that is no name clause and no e-mail clause (no
`Full Name:` or `Email:` prefix, no `@`), that contains `dietary` or
`food allerg` up to case and that contains a colon followed by a space,
`parseIftarModifiers` stores as `dietaryRestrictions` the trimmed text after
the last colon-space. -/
theorem C4_dietary_after_last_colon (c pre post : Str)
    (htrim : trim c = c)
    (hname : ¬ HasPrefixCI "Full Name:".toList c)
    (hemail : ¬ HasPrefixCI "Email:".toList c)
    (hat : '@' ∉ c)
    (hdiet : ContainsCI "dietary".toList c ∨ ContainsCI "food allerg".toList c)
    (hc : c = pre ++ ": ".toList ++ post)
    (hlast : ¬ ": ".toList <:+: post) :
    (parseIftarModifiers [c]).dietaryRestrictions = trim post := by
  have hne : c.isEmpty = false := by
    rw [hc]
    cases pre <;> rfl
  have h1 : (reFullName c).isSome = false := by
    rw [Bool.eq_false_iff, ne_eq, reFullName, matchLit_isSome_iff]
    exact hname
  have h2 : isEmailClause c = false := by
    rw [Bool.eq_false_iff, ne_eq, isEmailClause, Bool.or_eq_true, reEmail, matchLit_isSome_iff]
    rintro (e | e)
    · exact hemail e
    · exact hat ((includes_singleton c '@').1 e)
  have h3 : search reDietary c = true := (search_reDietary_iff c).2 hdiet
  have h4 : lastIndexOf c ": ".toList = pre.length := by
    rw [hc]
    exact lastIndexOf_colon_space pre post hlast
  have h5 : substring c ((pre.length : Int) + 2) = post := by
    have : ((pre.length : Int) + 2).toNat = pre.length + 2 := by omega
    rw [substring, this, hc]
    simp
  simp only [parseIftarModifiers, List.foldl_cons, List.foldl_nil, iftarStep, htrim, hne, h1, h2,
    h3, h4, h5, Bool.false_eq_true, if_false, if_true]
  rw [if_pos (by omega)]

/-- C4 at the clause of the specification, whose question holds a
colon-space itself. -/
theorem C4_dietary_after_last_colon_witness :
    (parseIftarModifiers
      ["Do you have any food allergies or dietary restrictions?: Please list: Halal".toList]
      ).dietaryRestrictions = "Halal".toList :=
  C4_dietary_after_last_colon
    "Do you have any food allergies or dietary restrictions?: Please list: Halal".toList
    "Do you have any food allergies or dietary restrictions?: Please list".toList "Halal".toList
    (by decide)
    (by rw [← matchLit_isSome_iff]; decide)
    (by rw [← matchLit_isSome_iff]; decide)
    (by decide)
    (Or.inl (by rw [← search_matchLit_iff]; decide))
    (by decide)
    (by rw [← includes_iff_infix]; decide)

/-! ## The e-mail rule -/

theorem trimStart_skipWs (s : Str) : trimStart (skipWs s) = skipWs s := by
  simp only [trimStart, skipWs]
  induction s with
  | nil => rfl
  | cons c cs ih =>
    by_cases h : isWhiteSpace c = true
    · simpa [List.dropWhile_cons, h] using ih
    · simp [List.dropWhile_cons, h]

theorem trim_skipWs (s : Str) : trim (skipWs s) = trim s := by
  simp only [trim, trimStart_skipWs]
  rfl

/-- A clause with the label `Email:` carries the trimmed text after the
label. -/
theorem emailValue_of_email_label (label rest : Str)
    (hl : SameUpToCase label "Email:".toList) : emailValue (label ++ rest) = trim rest := by
  have h1 : matchLit "Email:".toList (label ++ rest) = some rest :=
    (matchLit_eq_some_iff _ _ _).2 ⟨label, rfl, hl⟩
  have h2 : matchLit "Confirm Email:".toList (label ++ rest) = none := by
    cases label with
    | nil => simp [SameUpToCase] at hl
    | cons a t =>
      have ha : a.toUpper = 'E' := by
        simp only [SameUpToCase, List.map_cons, String.toList, List.cons.injEq] at hl
        exact hl.1
      have : ciEq 'C' a = false := by
        simp only [ciEq, ha]
        decide
      simp [matchLit, this]
  simp only [emailValue, replaceStart, reConfirmEmailWs, reEmailWs, reEmail, h1, h2,
    Option.map_none', Option.getD_none, Option.map_some', Option.getD_some, trim_skipWs]

/-- A clause without a label carries itself. -/
theorem emailValue_of_no_label (c : Str) (h1 : ¬ HasPrefixCI "Email:".toList c)
    (h2 : ¬ HasPrefixCI "Confirm Email:".toList c) : emailValue c = trim c := by
  rw [← matchLit_eq_none_iff] at h1 h2
  simp only [emailValue, replaceStart, reConfirmEmailWs, reEmailWs, reEmail, h1, h2,
    Option.map_none', Option.getD_none]

/-- A clause with the label `Confirm Email:` carries the trimmed text after
the label, when that text does not start with `Email:` in turn. -/
theorem emailValue_of_confirm_label (label rest : Str)
    (hl : SameUpToCase label "Confirm Email:".toList)
    (hr : ¬ HasPrefixCI "Email:".toList (trimStart rest)) :
    emailValue (label ++ rest) = trim rest := by
  have h1 : matchLit "Confirm Email:".toList (label ++ rest) = some rest :=
    (matchLit_eq_some_iff _ _ _).2 ⟨label, rfl, hl⟩
  have h2 : matchLit "Email:".toList (skipWs rest) = none := (matchLit_eq_none_iff _ _).2 hr
  simp only [emailValue, replaceStart, reConfirmEmailWs, reEmailWs, reEmail, h1, h2,
    Option.map_none', Option.getD_none, Option.map_some', Option.getD_some, trim_skipWs]

/-- The e-mail rule as far as the code applies it: a trimmed clause that is no
name clause (and, for Programming, no accessibility clause) and that starts
with `Email:` or contains `@` sets the e-mail and nothing else, and is not
left in the pool of unlabeled clauses. -/
theorem email_rule_of_label_or_at (c : Str) (htrim : trim c = c)
    (hname : ¬ HasPrefixCI "Full Name:".toList c)
    (hmail : HasPrefixCI "Email:".toList c ∨ '@' ∈ c) :
    parseIftarModifiers [c] =
      { fullName := [], email := emailValue c, dietaryRestrictions := [], event := [] } ∧
    (¬ HasPrefixCI "Accessibility Need:".toList c →
      ¬ HasPrefixCI "Accessibility Needs:".toList c →
      parseProgrammingModifiers [c] =
        { fullName := [], email := emailValue c, gender := [], status := [], year := [],
          photoConsent := [], accessibility := [], event := [] } ∧
      (labeledPass [c]).2 = []) := by
  have hne : c.isEmpty = false := by
    rcases hmail with ⟨w, r, h1, h2⟩ | h
    · cases w with
      | nil => simp [SameUpToCase] at h2
      | cons a t => rw [h1]; rfl
    · cases c with
      | nil => simp at h
      | cons a t => rfl
  have h1 : (reFullName c).isSome = false := by
    rw [Bool.eq_false_iff, ne_eq, reFullName, matchLit_isSome_iff]
    exact hname
  have h2 : isEmailClause c = true := by
    rw [isEmailClause, Bool.or_eq_true, reEmail, matchLit_isSome_iff]
    rcases hmail with h | h
    · exact Or.inl h
    · exact Or.inr ((includes_singleton c '@').2 h)
  constructor
  · simp [parseIftarModifiers, iftarStep, htrim, hne, h1, h2]
  · intro ha1 ha2
    have h3 : (reAccessibility c).isSome = false := by
      rw [(reAccessibility_eq_none_iff c).2 ⟨ha1, ha2⟩]
      rfl
    simp [parseProgrammingModifiers, labeledPass, programmingStep, htrim, hne, h1, h2, h3,
      positionalPass, takeGender, takeStatus, takeYear, takePhotoConsent]

/-- C3 at the failing input: the clause `Confirm Email: none` has the label
`Confirm Email:` but no `@`.  Neither parser stores an e-mail; the Programming
parser leaves the clause in the pool and stores it as the status. -/
theorem C3_confirm_email_without_at :
    trim "Confirm Email: none".toList = "Confirm Email: none".toList ∧
    (matchLit "Confirm Email:".toList "Confirm Email: none".toList).isSome = true ∧
    (reFullName "Confirm Email: none".toList).isSome = false ∧
    (reAccessibility "Confirm Email: none".toList).isSome = false ∧
    parseIftarModifiers ["Confirm Email: none".toList] =
      { fullName := [], email := [], dietaryRestrictions := [], event := [] } ∧
    (labeledPass ["Confirm Email: none".toList]).2 = ["Confirm Email: none".toList] ∧
    parseProgrammingModifiers ["Confirm Email: none".toList] =
      { fullName := [], email := [], gender := [], status := "Confirm Email: none".toList,
        year := [], photoConsent := [], accessibility := [], event := [] } := by
  decide

/-! ## Splitting -/

theorem joinWith_cons (sep c : Str) (l : List Str) :
    joinWith sep (c :: l) = c ++ joinTail sep l := by
  cases l with
  | nil => simp [joinWith, joinTail]
  | cons c2 t => simp [joinWith, joinTail]

/-- A trimmed, non-empty clause starts with a character that is no white
space. -/
theorem isClause_head (c : Str) (h : IsClause c) :
    ∃ a t, c = a :: t ∧ isWhiteSpace a = false := by
  obtain ⟨h1, h2⟩ := h
  cases c with
  | nil => exact absurd rfl h2
  | cons a t =>
    refine ⟨a, t, rfl, ?_⟩
    by_contra hw
    have hw2 : isWhiteSpace a = true := by simpa using hw
    have hlen : (trim (a :: t)).length ≤ t.length := by
      simp only [trim, trimEnd, trimStart, List.length_reverse, List.dropWhile_cons, hw2, if_true]
      calc ((t.dropWhile isWhiteSpace).reverse.dropWhile isWhiteSpace).length
          ≤ (t.dropWhile isWhiteSpace).reverse.length :=
            (List.dropWhile_sublist isWhiteSpace).length_le
        _ = (t.dropWhile isWhiteSpace).length := List.length_reverse _
        _ ≤ t.length := (List.dropWhile_sublist isWhiteSpace).length_le
    rw [h1] at hlen
    simp at hlen

theorem splitAux_cons_succ (m : Str → Option Str) (c : Char) (cs : Str) (k : Nat) (cur : Str) :
    splitAux m (c :: cs) (k + 1) cur = splitAux m cs k cur := rfl

theorem splitAux_cons_zero (m : Str → Option Str) (c : Char) (cs cur : Str) :
    splitAux m (c :: cs) 0 cur =
      match m (c :: cs) with
      | none => splitAux m cs 0 (c :: cur)
      | some r =>
        if r.length ≤ cs.length then cur.reverse :: splitAux m cs (cs.length - r.length) []
        else if cur.isEmpty then splitAux m cs 0 (c :: cur)
        else cur.reverse :: splitAux m cs 0 [c] := rfl

/-- While a separator is passed over, nothing is read. -/
theorem splitAux_skip (m : Str → Option Str) (xs t cur : Str) :
    splitAux m (xs ++ t) xs.length cur = splitAux m t 0 cur := by
  induction xs with
  | nil => rfl
  | cons x xs ih =>
    rw [List.cons_append, List.length_cons, splitAux_cons_succ]
    exact ih

/-- A stretch of text in which no separator starts is read into the current
piece. -/
theorem splitAux_clause (m : Str → Option Str) (hm : ∀ a t, a ≠ ',' → m (a :: t) = none)
    (c t cur : Str) (hc : ',' ∉ c) :
    splitAux m (c ++ t) 0 cur = splitAux m t 0 (c.reverse ++ cur) := by
  induction c generalizing cur with
  | nil => rfl
  | cons a c ih =>
    have ha : a ≠ ',' := fun e => hc (by simp [e])
    have hc2 : ',' ∉ c := fun e => hc (by simp [e])
    rw [List.cons_append, splitAux_cons_zero, hm a _ ha]
    simp only [ih _ hc2, List.reverse_cons, List.append_assoc, List.singleton_append]

/-- At a separator the current piece ends and the next one starts after the
separator. -/
theorem splitAux_separator (m : Str → Option Str) (a : Char) (sep t cur : Str)
    (hm : m (a :: sep ++ t) = some t) :
    splitAux m (a :: sep ++ t) 0 cur = cur.reverse :: splitAux m t 0 [] := by
  have hlen : t.length ≤ (sep ++ t).length := by simp
  have hsub : (sep ++ t).length - t.length = sep.length := by simp
  rw [List.cons_append] at hm ⊢
  rw [splitAux_cons_zero, hm]
  simp only [hlen, if_true, hsub, splitAux_skip]

/-- Splitting a joined list of comma-free clauses gives the clauses back, if
the separator pattern starts with a comma and matches each joint exactly. -/
theorem splitAux_joinWith (m : Str → Option Str) (hm : ∀ a t, a ≠ ',' → m (a :: t) = none)
    (sa : Char) (sep : Str) (l : List Str) (c cur : Str)
    (hc : ∀ x ∈ c :: l, ',' ∉ x)
    (hsep : ∀ x ∈ l, ∀ t, m (sa :: sep ++ (x ++ t)) = some (x ++ t)) :
    splitAux m (joinWith (sa :: sep) (c :: l)) 0 cur = (cur.reverse ++ c) :: l := by
  induction l generalizing c cur with
  | nil =>
    have := splitAux_clause m hm c [] cur (hc c (by simp))
    simp only [List.append_nil] at this
    simp [joinWith, this, splitAux]
  | cons c2 l ih =>
    rw [joinWith_cons, splitAux_clause m hm c _ cur (hc c (by simp))]
    simp only [joinTail]
    rw [joinWith_cons]
    have h1 := hsep c2 (by simp) (joinTail (sa :: sep) l)
    rw [splitAux_separator m sa sep _ _ h1, ← joinWith_cons,
      ih c2 [] (fun x hx => hc x (by simp [hx])) (fun x hx => hsep x (by simp [hx]))]
    simp

theorem matchLit_comma (a : Char) (t : Str) (ha : a ≠ ',') :
    matchLit [','] (a :: t) = none := by
  rw [matchLit_cons_not_letter ',' [] (by decide) (by decide), if_neg ha]

theorem reComma_of_ne (a : Char) (t : Str) (ha : a ≠ ',') : reComma (a :: t) = none := by
  simp [reComma, matchLit_comma a t ha]

theorem reCommaQty_of_ne (a : Char) (t : Str) (ha : a ≠ ',') : reCommaQty (a :: t) = none := by
  simp [reCommaQty, matchLit_comma a t ha]

/-- The pattern `^1\s*x\s` takes exactly the token `1 x ` off the front. -/
theorem reQty_token (t : Str) : reQty ('1' :: ' ' :: 'x' :: ' ' :: t) = some t := by
  have h1 : isWhiteSpace ' ' = true := by decide
  have h2 : isWhiteSpace 'x' = false := by decide
  simp [reQty, matchLit, ciEq, skipWs, matchClass, List.dropWhile_cons, h1, h2]

theorem reCommaQty_joint (t : Str) :
    reCommaQty (',' :: " 1 x ".toList ++ t) = some t := by
  have h1 : isWhiteSpace ' ' = true := by decide
  have h2 : isWhiteSpace '1' = false := by decide
  have h3 := reQty_token t
  simp only [String.toList, List.cons_append, List.nil_append]
  simp [reCommaQty, matchLit, ciEq, skipWs, List.dropWhile_cons, h1, h2, h3]

theorem reComma_joint (x t : Str) (hx : IsClause x) :
    reComma (',' :: " ".toList ++ (x ++ t)) = some (x ++ t) := by
  obtain ⟨a, u, rfl, ha⟩ := isClause_head x hx
  have h1 : isWhiteSpace ' ' = true := by decide
  simp only [String.toList, List.cons_append, List.nil_append]
  simp [reComma, matchLit, ciEq, skipWs, List.dropWhile_cons, h1, ha]

/-- What follows a clause in a joined text: nothing, or a comma and more. -/
theorem joinTail_shape (sep l) :
    joinTail (',' :: sep) l = [] ∨ ∃ t, joinTail (',' :: sep) l = ',' :: t := by
  cases l with
  | nil => exact Or.inl rfl
  | cons c t => exact Or.inr ⟨_, rfl⟩

theorem matchClass_ws_append (u t : Str) (ht : t = [] ∨ ∃ t1, t = ',' :: t1)
    (h : matchClass isWhiteSpace u = none) : matchClass isWhiteSpace (u ++ t) = none := by
  cases u with
  | nil =>
    rcases ht with rfl | ⟨t1, rfl⟩
    · rfl
    · have : isWhiteSpace ',' = false := by decide
      simp [matchClass, this]
  | cons a v => simpa [matchClass] using h

/-- The leading-token test looks at most one character past the clause, and
a comma is no part of the token. -/
theorem reQty_append_none (c t : Str) (ht : t = [] ∨ ∃ t1, t = ',' :: t1)
    (hc : reQty c = none) : reQty (c ++ t) = none := by
  have hx : matchLit ['x'] t = none := by
    rcases ht with rfl | ⟨t1, rfl⟩
    · rfl
    · have : ciEq 'x' ',' = false := by decide
      simp [matchLit, this]
  have h1 : matchLit ['1'] t = none := by
    rcases ht with rfl | ⟨t1, rfl⟩
    · rfl
    · have : ciEq '1' ',' = false := by decide
      simp [matchLit, this]
  have hs : skipWs t = t := by
    rcases ht with rfl | ⟨t1, rfl⟩
    · rfl
    · have : isWhiteSpace ',' = false := by decide
      simp [skipWs, List.dropWhile_cons, this]
  have hlit1 : "1".toList = ['1'] := rfl
  have hlitx : "x".toList = ['x'] := rfl
  simp only [reQty, hlit1, hlitx] at hc ⊢
  cases c with
  | nil => simp [h1]
  | cons a u =>
    by_cases ha : ciEq '1' a = true
    · simp only [matchLit, ha, if_true, Option.some_bind, List.cons_append] at hc ⊢
      have hsk : skipWs (u ++ t) = if (skipWs u).isEmpty then t else skipWs u ++ t := by
        simp only [skipWs, List.dropWhile_append]
        split_ifs
        · exact hs
        · rfl
      show ((matchLit ['x'] (skipWs (u ++ t))).bind fun a => matchClass isWhiteSpace a) = none
      rw [hsk]
      cases hu : skipWs u with
      | nil => simp [hx]
      | cons b v =>
        rw [hu] at hc
        simp only [List.isEmpty_cons, Bool.false_eq_true, if_false, List.cons_append]
        by_cases hb : ciEq 'x' b = true
        · simp only [matchLit, hb, if_true, Option.some_bind] at hc ⊢
          exact matchClass_ws_append v t ht hc
        · have hb2 : ciEq 'x' b = false := by simpa using hb
          simp [matchLit, hb2]
    · have ha2 : ciEq '1' a = false := by simpa using ha
      simp [matchLit, ha2]

theorem toUpper_eq_X (b : Char) (h : b.toUpper = 'X') : b = 'x' ∨ b = 'X' := by
  simp only [Char.toUpper] at h
  split at h
  · rename_i hb
    left
    have h2 := congrArg Char.toNat h
    rw [toNat_ofNat_small _ (by omega)] at h2
    have h3 : b.toNat = 120 := by
      have : 'X'.toNat = 88 := by decide
      omega
    have := Char.ofNat_toNat b
    rw [h3] at this
    exact this.symm
  · exact Or.inr h

/-- The pattern `^1\s*x\s` with flag `i` matches exactly the texts that start
with a quantity token. -/
theorem reQty_isSome_iff (c : Str) : (reQty c).isSome = true ↔ BeginsWithQuantityToken c := by
  have hlit1 : "1".toList = ['1'] := rfl
  have hlitx : "x".toList = ['x'] := rfl
  simp only [reQty, hlit1, hlitx]
  constructor
  · intro h
    cases c with
    | nil => simp [matchLit] at h
    | cons a u =>
      rw [matchLit_cons_not_letter '1' [] (by decide) (by decide)] at h
      by_cases ha : a = '1'
      · subst ha
        simp only [if_true, matchLit, Option.some_bind] at h
        cases hu : skipWs u with
        | nil => rw [hu] at h; simp [matchLit] at h
        | cons b v =>
          rw [hu] at h
          by_cases hb : ciEq 'x' b = true
          · simp only [matchLit, hb, if_true, Option.some_bind] at h
            cases v with
            | nil => simp [matchClass] at h
            | cons w rest =>
              by_cases hw : isWhiteSpace w = true
              · refine ⟨u.takeWhile isWhiteSpace, b, w, rest, ?_, ?_, ?_, hw⟩
                · have := List.takeWhile_append_dropWhile isWhiteSpace u
                  rw [skipWs] at hu
                  rw [hu] at this
                  rw [List.cons_append, this]
                · intro x hx
                  exact (List.mem_takeWhile_imp hx)
                · apply toUpper_eq_X
                  simp only [ciEq, beq_iff_eq] at hb
                  rw [← hb]
                  decide
              · have hw2 : isWhiteSpace w = false := by simpa using hw
                simp [matchClass, hw2] at h
          · have hb2 : ciEq 'x' b = false := by simpa using hb
            simp [matchLit, hb2] at h
      · simp [ha] at h
  · rintro ⟨ws, x, w, rest, rfl, hws, hx, hw⟩
    have hxw : isWhiteSpace x = false := by
      rcases hx with rfl | rfl <;> decide
    have hxc : ciEq 'x' x = true := by
      rcases hx with rfl | rfl <;> decide
    have hsk : skipWs (ws ++ x :: w :: rest) = x :: w :: rest := by
      simp only [skipWs]
      rw [List.dropWhile_append_of_pos hws]
      simp [List.dropWhile_cons, hxw]
    have h1 : ciEq '1' '1' = true := by decide
    simp [matchLit, h1, hsk, hxc, matchClass, hw]

/-- C2: for a non-empty list of trimmed, non-empty, comma-free clauses whose
first clause does not start with a quantity token, the text with the token
`1 x ` before every clause and the text with plain commas both split into the
clauses of the list. -/
theorem C2_split_styles_agree (c : Str) (l : List Str)
    (hcl : ∀ x ∈ c :: l, IsClause x ∧ ',' ∉ x)
    (hfirst : ¬ BeginsWithQuantityToken c) :
    splitModifiers ("1 x ".toList ++ joinWith ", 1 x ".toList (c :: l)) = c :: l ∧
    splitModifiers (joinWith ", ".toList (c :: l)) = c :: l := by
  have hq : reQty c = none := by
    rw [← reQty_isSome_iff] at hfirst
    cases h : reQty c with
    | none => rfl
    | some r => rw [h] at hfirst; simp at hfirst
  constructor
  · have h1 : reQty ("1 x ".toList ++ joinWith ", 1 x ".toList (c :: l))
        = some (joinWith ", 1 x ".toList (c :: l)) := reQty_token _
    simp only [splitModifiers, h1, Option.isSome_some, if_true, replaceStart, Option.getD_some,
      split]
    have := splitAux_joinWith reCommaQty reCommaQty_of_ne ',' " 1 x ".toList l c []
      (fun x hx => (hcl x hx).2) (fun x _ t => reCommaQty_joint (x ++ t))
    simpa using this
  · have h1 : reQty (joinWith ", ".toList (c :: l)) = none := by
      rw [joinWith_cons]
      exact reQty_append_none c _ (joinTail_shape _ l) hq
    simp only [splitModifiers, h1, Option.isSome_none, Bool.false_eq_true, if_false, split]
    have := splitAux_joinWith reComma reComma_of_ne ',' " ".toList l c []
      (fun x hx => (hcl x hx).2)
      (fun x hx t => reComma_joint x t (hcl x (List.mem_cons_of_mem _ hx)).1)
    simpa using this

/-- C2 at the two texts of the specification. -/
theorem C2_split_styles_agree_witness :
    splitModifiers "1 x Full Name: Jane Doe, 1 x Male, 1 x Yes".toList
      = ["Full Name: Jane Doe".toList, "Male".toList, "Yes".toList] ∧
    splitModifiers "Full Name: Jane Doe, Male, Yes".toList
      = ["Full Name: Jane Doe".toList, "Male".toList, "Yes".toList] :=
  C2_split_styles_agree "Full Name: Jane Doe".toList ["Male".toList, "Yes".toList]
    (by decide) (by rw [← reQty_isSome_iff]; decide)

end SquareParser
